import Mathlib

set_option maxRecDepth 10000
set_option exponentiation.threshold 3000

/-!
Verification of the serde ↔ lua bidirectional conversion engine.

The development shallowly embeds the value model (`AnyLuaValue`), the
structured-value encoder (`ser.rs`) and the decoder (`de.rs`).  Doubles are
modelled exactly: a finite IEEE-754 binary64 value is carried as the rational
number it denotes, and the integer↔double casts of the source are modelled by
genuine round-to-nearest-even rounding, so the numeric-losslessness guards
(`v as f64 as i64 == v` and friends) behave as in the source.

Rational arithmetic in the computational definitions is written with `mkRat`
based helpers (`ratMul`, `pow2`, `ratAbs`) so that every definition evaluates
by kernel reduction; bridge lemmas relate them to the ordinary field
operations for proving.
-/

/-- Model of an IEEE-754 binary64 value: NaN, signed infinity, or a finite
value carried as the exact rational it denotes (`-0.0` is conflated with
`0.0`; none of the modelled code distinguishes them). -/
inductive F64 where
  | nan : F64
  | inf (neg : Bool) : F64
  | fin (val : ℚ) : F64
deriving DecidableEq

/-- Fuel-driven floor base-2 logarithm; structurally recursive so that it
evaluates by kernel reduction (`Nat.log2` is defined by well-founded
recursion, which does not reduce). -/
def log2fuel (fuel n : Nat) : Nat :=
  match fuel with
  | 0 => 0
  | f + 1 => if n < 2 then 0 else log2fuel f (n / 2) + 1

/-- Floor base-2 logarithm, kernel-reducible; agrees with `Nat.log2`. -/
def natLog2 (n : Nat) : Nat := log2fuel n n

/-- Round `n` to the nearest multiple of the grid `g` (round to nearest,
ties to even in units of the grid). -/
def gridRound (g n : Nat) : Nat :=
  if 2 * (n % g) < g then (n / g) * g
  else if g < 2 * (n % g) then (n / g + 1) * g
  else if (n / g) % 2 = 0 then (n / g) * g else (n / g + 1) * g

/-- Round a natural number to 53 significant bits, round to nearest with ties
to even.  This is the mantissa rounding an integer magnitude undergoes when
cast to `f64` with Rust's `as`. -/
def round53 (n : Nat) : Nat :=
  if n < 2 ^ 53 then n
  else gridRound (2 ^ (natLog2 n - 52)) n

/-- Rust `n as f64` for an integer `n`: round to nearest even; a rounded
magnitude at or beyond `2 ^ 1024` overflows to infinity (unreachable for the
64-bit integers of the source, but kept for totality). -/
def intToF64 (n : Int) : F64 :=
  let r := round53 n.natAbs
  if 2 ^ 1024 ≤ r then .inf (decide (n < 0))
  else if n < 0 then .fin (-(r : ℚ)) else .fin (r : ℚ)

/-- Truncation toward zero of a rational, the integral part taken by Rust
float-to-integer casts. -/
def truncRat (q : ℚ) : Int := if 0 ≤ q then q.floor else -(-q).floor

/-- Rust `x as` a fixed-width integer type with value range `[lo, hi]`:
NaN goes to zero, infinities and out-of-range values saturate, finite values
truncate toward zero. -/
def f64toInt (lo hi : Int) : F64 → Int
  | .nan => 0
  | .inf neg => if neg then lo else hi
  | .fin q =>
    let t := truncRat q
    if t < lo then lo else if hi < t then hi else t

/-- Rust `x as i8`. -/
def f64toI8 : F64 → Int := f64toInt (-(2 ^ 7)) (2 ^ 7 - 1)

/-- Rust `x as i16`. -/
def f64toI16 : F64 → Int := f64toInt (-(2 ^ 15)) (2 ^ 15 - 1)

/-- Rust `x as i32`. -/
def f64toI32 : F64 → Int := f64toInt (-(2 ^ 31)) (2 ^ 31 - 1)

/-- Rust `x as i64`. -/
def f64toI64 : F64 → Int := f64toInt (-(2 ^ 63)) (2 ^ 63 - 1)

/-- Rust `x as u8`. -/
def f64toU8 : F64 → Int := f64toInt 0 (2 ^ 8 - 1)

/-- Rust `x as u16`. -/
def f64toU16 : F64 → Int := f64toInt 0 (2 ^ 16 - 1)

/-- Rust `x as u32`. -/
def f64toU32 : F64 → Int := f64toInt 0 (2 ^ 32 - 1)

/-- Rust `x as u64`. -/
def f64toU64 : F64 → Int := f64toInt 0 (2 ^ 64 - 1)

/-- Rust `x as usize` on a 64-bit target. -/
def f64toUsize (x : F64) : Nat := (f64toU64 x).toNat

/-- IEEE-754 `==` on doubles: NaN compares unequal to everything, including
itself (`-0.0 == 0.0` holds; both are the single model value `fin 0`). -/
def f64beq : F64 → F64 → Bool
  | .nan, _ => false
  | _, .nan => false
  | .inf a, .inf b => a == b
  | .inf _, .fin _ => false
  | .fin _, .inf _ => false
  | .fin a, .fin b => decide (a = b)

/-- Kernel-reducible product of rationals (Batteries marks `Rat.mul`
irreducible, which would block `decide`). -/
def ratMul (a b : ℚ) : ℚ := mkRat (a.num * b.num) (a.den * b.den)

/-- Kernel-reducible power of two with integer exponent. -/
def pow2 (s : Int) : ℚ := if 0 ≤ s then mkRat (2 ^ s.toNat) 1 else mkRat 1 (2 ^ (-s).toNat)

/-- Kernel-reducible absolute value on rationals. -/
def ratAbs (q : ℚ) : ℚ := if q < 0 then -q else q

/-- Round a rational to the nearest integer, ties to even. -/
def rhe (x : ℚ) : Int :=
  let f := x.floor
  let mid : ℚ := mkRat (2 * f + 1) 2
  if x < mid then f
  else if mid < x then f + 1
  else if f % 2 = 0 then f else f + 1

/-- Binary exponent of a nonzero rational: the unique `e` with
`2 ^ e ≤ |q| < 2 ^ (e + 1)`. -/
def qlog2 (q : ℚ) : Int :=
  let a := q.num.natAbs
  let d := q.den
  if d ≤ a then (natLog2 (a / d) : Int)
  else
    let e := natLog2 (d / a)
    if ratAbs q = pow2 (-(e : Int)) then -(e : Int) else -(e : Int) - 1

/-- Round a rational to a binary floating-point format with `prec` bits of
precision, minimal (subnormal) grid exponent `smin`, and overflow threshold
`2 ^ emax`; round to nearest, ties to even. -/
def ratRound (prec : Nat) (smin emax : Int) (q : ℚ) : F64 :=
  if q = 0 then .fin 0
  else
    let s : Int := max (qlog2 q - prec + 1) smin
    let m : Int := rhe (ratMul q (pow2 (-s)))
    let v : ℚ := ratMul (m : ℚ) (pow2 s)
    if pow2 emax ≤ ratAbs v then .inf (decide (q < 0)) else .fin v

/-- Rust `x as f32` on a double, with the resulting `f32` viewed back as the
double it denotes exactly (the model keeps every float in the one type
`F64`): round to 24 bits of precision in the binary32 exponent range. -/
def f32cast : F64 → F64
  | .nan => .nan
  | .inf b => .inf b
  | .fin q => ratRound 24 (-149) 128 q

/-- Model of hlua's `AnyLuaValue`, the dynamic value exchanged with the lua
runtime.  `LuaAnyString` carries non-UTF-8 byte data; `LuaOther` is the
opaque kind the decoder always rejects. -/
inductive AnyLuaValue where
  | LuaString (s : String)
  | LuaAnyString (bytes : List Nat)
  | LuaNumber (x : F64)
  | LuaBoolean (b : Bool)
  | LuaArray (pairs : List (AnyLuaValue × AnyLuaValue))
  | LuaNil
  | LuaOther

/-- Stable insertion of `x` into a list sorted by `k`: `x` goes before the
first element with a strictly greater key, and after equal keys, matching the
stability guarantee of Rust's `sort_by_key`. -/
def insertByKey (k : α → Nat) (x : α) : List α → List α
  | [] => [x]
  | y :: ys => if k x ≤ k y then x :: y :: ys else y :: insertByKey k x ys

/-- Stable sort by a `Nat` key, modelling `slice::sort_by_key` (a stable
sort). -/
def sortByKey (k : α → Nat) : List α → List α
  | [] => []
  | x :: xs => insertByKey k x (sortByKey k xs)

/-- The key function passed to `sort_by_key` in `is_vec`: `number as usize`.
The non-number branch is `unreachable!()` in the source (the pre-scan has
already ruled it out); the model returns 0 there. -/
def luaSortKey (p : AnyLuaValue × AnyLuaValue) : Nat :=
  match p.1 with
  | .LuaNumber x => f64toUsize x
  | _ => 0

/-- Model of `is_vec` (de.rs): `Ok(sorted)` when the table is array-shaped
(every key numeric, and in the original iteration order the i-th key passes
`number as usize as f64 == number && number == (index + 1) as f64`),
`Err(original)` otherwise. -/
def is_vec (array : List (AnyLuaValue × AnyLuaValue)) :
    Except (List (AnyLuaValue × AnyLuaValue)) (List (AnyLuaValue × AnyLuaValue)) :=
  if array.any (fun p => match p.1 with | .LuaNumber _ => false | _ => true) then
    .error array
  else
    let sorted := sortByKey luaSortKey array
    let is_array := array.enum.all fun ip =>
      match ip.2.1 with
      | .LuaNumber number =>
          f64beq (intToF64 ((f64toUsize number : Nat) : Int)) number &&
          f64beq number (intToF64 ((ip.1 : Int) + 1))
      | _ => false
    if is_array then .ok sorted else .error array

/-- An error returned by lua serialization (`LuaSerializeError` carries a
message built with `serde::ser::Error::custom`, the only constructor the
encoder uses). -/
inductive LuaSerializeError where
  | custom (msg : String)
deriving DecidableEq

/-- A result returned by lua serialization (`SerResult`). -/
abbrev SerResult (α : Type) := Except LuaSerializeError α

/-- Model of `LuaSerializer::serialize_i64`: encoding is refused unless
`v as f64 as i64 == v`. -/
def serialize_i64 (v : Int) : SerResult AnyLuaValue :=
  if f64toI64 (intToF64 v) ≠ v then
    .error (.custom "value cannot be losslessly represented as lua number (f64)")
  else .ok (.LuaNumber (intToF64 v))

/-- Model of `LuaSerializer::serialize_u64`: encoding is refused unless
`v as f64 as u64 == v`. -/
def serialize_u64 (v : Int) : SerResult AnyLuaValue :=
  if f64toU64 (intToF64 v) ≠ v then
    .error (.custom "value cannot be losslessly represented as lua number (f64)")
  else .ok (.LuaNumber (intToF64 v))

/-- Model of `LuaSerializeSeq`, the incremental sequence/tuple builder: the
ordered pairs accumulated so far. -/
structure LuaSerializeSeq where
  pairs : List (AnyLuaValue × AnyLuaValue)

/-- Model of `LuaSerializeSeq::serialize_element`: push the pair
`((len + 1) as f64, element)`, where `element` is the result of serializing
the value (an element that fails to serialize aborts the builder). -/
def LuaSerializeSeq.serialize_element (s : LuaSerializeSeq)
    (value : SerResult AnyLuaValue) : SerResult LuaSerializeSeq := do
  let v ← value
  pure ⟨s.pairs ++ [(.LuaNumber (intToF64 ((s.pairs.length : Int) + 1)), v)]⟩

/-- Model of `LuaSerializeSeq::end`: wrap the accumulated pairs in a table. -/
def seq_end (s : LuaSerializeSeq) : SerResult AnyLuaValue :=
  .ok (.LuaArray s.pairs)

/-- Model of `LuaSerializeMap`, the incremental map/struct builder. -/
structure LuaSerializeMap where
  pairs : List (AnyLuaValue × AnyLuaValue)

/-- The unserializable-key guard shared by `serialize_key` and
`serialize_entry`: a key that is a NaN number (`number != number`) or nil is
refused. -/
def keyCheck (key : AnyLuaValue) : SerResult Unit :=
  match key with
  | .LuaNumber number =>
    if !f64beq number number then .error (.custom "unserializable key NaN") else .ok ()
  | .LuaNil => .error (.custom "unserializable key nil")
  | _ => .ok ()

/-- Model of `LuaSerializeMap::serialize_key`: serialize the key, check it,
push `(key, Nil)` with nil as the placeholder value. -/
def LuaSerializeMap.serialize_key (s : LuaSerializeMap)
    (key : SerResult AnyLuaValue) : SerResult LuaSerializeMap := do
  let k ← key
  keyCheck k
  pure ⟨s.pairs ++ [(k, .LuaNil)]⟩

/-- Replace the value of the last pair of a list (the assignment
`self.0[len - 1].1 = value`). -/
def setLast (v : AnyLuaValue) :
    List (AnyLuaValue × AnyLuaValue) → List (AnyLuaValue × AnyLuaValue)
  | [] => []
  | [p] => [(p.1, v)]
  | p :: q :: rest => p :: setLast v (q :: rest)

/-- Model of `LuaSerializeMap::serialize_value`: serialize the value, then
store it in the last pushed pair.  The inner `none` models the panic of the
index `self.0[len - 1]` when no pair has been pushed (in Rust the right-hand
side is evaluated before the place, so a value serialization error is
returned before the index can panic). -/
def LuaSerializeMap.serialize_value (s : LuaSerializeMap)
    (value : SerResult AnyLuaValue) : SerResult (Option LuaSerializeMap) := do
  let v ← value
  if s.pairs.isEmpty then pure none
  else pure (some ⟨setLast v s.pairs⟩)

/-- Model of `LuaSerializeMap::serialize_entry`: serialize and check the key
before the value is serialized, then push the completed pair. -/
def LuaSerializeMap.serialize_entry (s : LuaSerializeMap)
    (key value : SerResult AnyLuaValue) : SerResult LuaSerializeMap := do
  let k ← key
  keyCheck k
  let v ← value
  pure ⟨s.pairs ++ [(k, v)]⟩

/-- Model of `LuaSerializeMap::end`: wrap the accumulated pairs in a table. -/
def map_end (s : LuaSerializeMap) : SerResult AnyLuaValue :=
  .ok (.LuaArray s.pairs)

/-- A native (Rust-side) value of serde's data model, the input of the
encoder. Fixed-width integers carry their mathematical value (the typing
relation `hasTy` imposes the range); `vF32` carries the exact double-precision
value the `f32` denotes. -/
inductive NativeValue where
  | vBool (b : Bool)
  | vI8 (n : Int)
  | vI16 (n : Int)
  | vI32 (n : Int)
  | vI64 (n : Int)
  | vU8 (n : Int)
  | vU16 (n : Int)
  | vU32 (n : Int)
  | vU64 (n : Int)
  | vF32 (x : F64)
  | vF64 (x : F64)
  | vChar (c : Char)
  | vStr (s : String)
  | vBytes (bs : List Nat)
  | vNone
  | vSome (w : NativeValue)
  | vUnit
  | vUnitStruct (name : String)
  | vNewtypeStruct (name : String) (w : NativeValue)
  | vUnitVariant (name variant : String)
  | vNewtypeVariant (name variant : String) (w : NativeValue)
  | vSeq (elems : List NativeValue)
  | vTuple (elems : List NativeValue)
  | vTupleStruct (name : String) (elems : List NativeValue)
  | vTupleVariant (name variant : String) (elems : List NativeValue)
  | vMap (entries : List (NativeValue × NativeValue))
  | vStruct (name : String) (fields : List (String × NativeValue))
  | vStructVariant (name variant : String) (fields : List (String × NativeValue))

/-- Model of the encoder entry point `to_lua`: serde's `Serialize` dispatch
on a native value driving `LuaSerializer` (ser.rs).  Sequences, tuples and
tuple structs run the `LuaSerializeSeq` builder; maps and structs run the
`LuaSerializeMap` builder through `serialize_entry`; variants produce the
one-entry envelope.  Byte data fails (the `base64-bytes` capability is not
compiled in). -/
def encode : NativeValue → SerResult AnyLuaValue
  | .vBool b => .ok (.LuaBoolean b)
  | .vI8 n => .ok (.LuaNumber (intToF64 n))
  | .vI16 n => .ok (.LuaNumber (intToF64 n))
  | .vI32 n => .ok (.LuaNumber (intToF64 n))
  | .vI64 n => serialize_i64 n
  | .vU8 n => .ok (.LuaNumber (intToF64 n))
  | .vU16 n => .ok (.LuaNumber (intToF64 n))
  | .vU32 n => .ok (.LuaNumber (intToF64 n))
  | .vU64 n => serialize_u64 n
  | .vF32 x => .ok (.LuaNumber x)
  | .vF64 x => .ok (.LuaNumber x)
  | .vChar c => .ok (.LuaString (String.mk [c]))
  | .vStr s => .ok (.LuaString s)
  | .vBytes _ => .error (.custom "cannot serialize bytes; compile with 'base64-bytes'")
  | .vNone => .ok .LuaNil
  | .vSome w => encode w
  | .vUnit => .ok .LuaNil
  | .vUnitStruct _ => .ok .LuaNil
  | .vNewtypeStruct _ w => encode w
  | .vUnitVariant _ c => .ok (.LuaString c)
  | .vNewtypeVariant _ c w => do
    let l ← encode w
    pure (.LuaArray [(.LuaString c, l)])
  | .vSeq vs => do
    let st ← vs.attach.foldlM (fun st vh => st.serialize_element (encode vh.1))
      (⟨[]⟩ : LuaSerializeSeq)
    seq_end st
  | .vTuple vs => do
    let st ← vs.attach.foldlM (fun st vh => st.serialize_element (encode vh.1))
      (⟨[]⟩ : LuaSerializeSeq)
    seq_end st
  | .vTupleStruct _ vs => do
    let st ← vs.attach.foldlM (fun st vh => st.serialize_element (encode vh.1))
      (⟨[]⟩ : LuaSerializeSeq)
    seq_end st
  | .vTupleVariant _ c vs => do
    let st ← vs.attach.foldlM (fun st vh => st.serialize_element (encode vh.1))
      (⟨[]⟩ : LuaSerializeSeq)
    let l ← seq_end st
    pure (.LuaArray [(.LuaString c, l)])
  | .vMap entries => do
    let st ← entries.attach.foldlM
      (fun st vh => st.serialize_entry (encode vh.1.1) (encode vh.1.2))
      (⟨[]⟩ : LuaSerializeMap)
    map_end st
  | .vStruct _ fields => do
    let st ← fields.attach.foldlM
      (fun st vh => st.serialize_entry (.ok (.LuaString vh.1.1)) (encode vh.1.2))
      (⟨[]⟩ : LuaSerializeMap)
    map_end st
  | .vStructVariant _ c fields => do
    let st ← fields.attach.foldlM
      (fun st vh => st.serialize_entry (.ok (.LuaString vh.1.1)) (encode vh.1.2))
      (⟨[]⟩ : LuaSerializeMap)
    let l ← map_end st
    pure (.LuaArray [(.LuaString c, l)])
termination_by v => sizeOf v
decreasing_by
  all_goals simp_wf
  all_goals have hlt := List.sizeOf_lt_of_mem vh.2
  all_goals first
  | omega
  | (rcases vh with ⟨⟨x, y⟩, hm⟩; simp at hlt ⊢; omega)

/-- The encoder entry point (lib.rs `to_lua`). -/
def to_lua (v : NativeValue) : SerResult AnyLuaValue := encode v

/-- An error returned by lua deserialization.  The real `LuaDeserializeError`
carries only the formatted message; the model keeps the `serde::de::Error`
constructor that the source invoked, with the payload the source passed. -/
inductive LuaDeserializeError where
  | custom (msg : String)
  | invalidType (unexpected : String)
  | invalidLength (len : Nat)
  | invalidValue (unexpected : String)
deriving DecidableEq

/-- A result returned by lua deserialization (`DeResult`). -/
abbrev DeResult (α : Type) := Except LuaDeserializeError α

/-- The `Unexpected` description produced by the `error` helper (de.rs) for
each kind of lua value. -/
def unexpectedOf : AnyLuaValue → String
  | .LuaString _ => "string"
  | .LuaAnyString _ => "bytes"
  | .LuaNumber _ => "float"
  | .LuaBoolean _ => "bool"
  | .LuaArray _ => "map"
  | .LuaNil => "unit"
  | .LuaOther => "unserializable"

/-- Model of the `error` helper (de.rs): an `invalid_type` error describing
the unexpected value. -/
def deError (v : AnyLuaValue) : LuaDeserializeError := .invalidType (unexpectedOf v)

/-- Model of `LuaMapAccess`: the remaining key/value pairs to yield, and the
pending value of a key that has been yielded but whose value has not been
requested yet. -/
structure LuaMapAccess where
  rest : List (AnyLuaValue × AnyLuaValue)
  pending : Option AnyLuaValue

/-- Core state transition of `LuaMapAccess::next_key_seed`, before the seed
decodes the key: pop the next pair and stash its value in the pending slot
(an exhausted iterator yields `none` and leaves the state unchanged). -/
def LuaMapAccess.nextKeyRaw (s : LuaMapAccess) : Option AnyLuaValue × LuaMapAccess :=
  match s.rest with
  | [] => (none, s)
  | (k, v) :: t => (some k, ⟨t, some v⟩)

/-- Core state transition of `LuaMapAccess::next_value_seed`:
`self.1.take().unwrap()`.  The outer `none` models the `unwrap` panic when
the pending slot is empty. -/
def LuaMapAccess.nextValueRaw (s : LuaMapAccess) : Option (AnyLuaValue × LuaMapAccess) :=
  match s.pending with
  | none => none
  | some v => some (v, ⟨s.rest, none⟩)

/-- One accessor call a deserialization consumer can make against
`LuaMapAccess`. -/
inductive MapOp where
  | key
  | val

/-- Run a sequence of accessor calls against a `LuaMapAccess`; `none` models
an `unwrap` panic inside `next_value_seed`. -/
def runOps : List MapOp → LuaMapAccess → Option LuaMapAccess
  | [], s => some s
  | .key :: ops, s => runOps ops (s.nextKeyRaw).2
  | .val :: ops, s =>
    match s.nextValueRaw with
    | some (_, t) => runOps ops t
    | none => none

/-- The deserialization protocol's calling discipline for map access: the
value accessor is invoked only immediately after a key accessor that
returned a key, with no skipping and no key-without-value. -/
inductive MapCallsOk : LuaMapAccess → List MapOp → Prop where
  | nil (s : LuaMapAccess) : MapCallsOk s []
  | keyNone (s : LuaMapAccess) (ops : List MapOp) :
      s.rest = [] → MapCallsOk (s.nextKeyRaw).2 ops → MapCallsOk s (.key :: ops)
  | keySome (s : LuaMapAccess) (ops : List MapOp)
      (k v : AnyLuaValue) (t : List (AnyLuaValue × AnyLuaValue)) :
      s.rest = (k, v) :: t → MapCallsOk ⟨t, none⟩ ops →
      MapCallsOk s (.key :: .val :: ops)

mutual
/-- The shape a consumer requests from the decoder: serde's type-level data
model (the `Deserialize` impl of the target type picks the deserializer
method that runs). -/
inductive Ty where
  | tBool
  | tI8
  | tI16
  | tI32
  | tI64
  | tU8
  | tU16
  | tU32
  | tU64
  | tF32
  | tF64
  | tChar
  | tStr
  | tBytes
  | tOption (t : Ty)
  | tUnit
  | tUnitStruct (name : String)
  | tNewtypeStruct (name : String) (t : Ty)
  | tSeq (t : Ty)
  | tTuple (ts : List Ty)
  | tTupleStruct (name : String) (ts : List Ty)
  | tMap (kt vt : Ty)
  | tStruct (name : String) (fields : List (String × Ty))
  | tEnum (name : String) (variants : List (String × VariantShape))

/-- The payload shape of one enum variant. -/
inductive VariantShape where
  | unitShape
  | newtypeShape (t : Ty)
  | tupleShape (ts : List Ty)
  | structShape (fields : List (String × Ty))
end

/-- The canonical consumer loop over `LuaMapAccess` — request a key, then
immediately its value, repeatedly — decoding keys and values with the
provided decoders.  This is the discipline every derived `Deserialize`
follows (its `next_entry_seed` default is exactly key-then-value). -/
def drainMap (dk dv : AnyLuaValue → DeResult NativeValue) (s : LuaMapAccess) :
    DeResult (List (NativeValue × NativeValue)) :=
  match hk : s.nextKeyRaw with
  | (none, _) => .ok []
  | (some k, s1) => do
    let kd ← dk k
    match hv : s1.nextValueRaw with
    | none => .error (.custom "value requested with no pending value")
    | some (v, s2) => do
      let vd ← dv v
      let rest ← drainMap dk dv s2
      .ok ((kd, vd) :: rest)
termination_by s.rest.length
decreasing_by
  simp only [LuaMapAccess.nextKeyRaw] at hk
  rcases hrest : s.rest with _ | ⟨⟨k0, v0⟩, t⟩ <;> rw [hrest] at hk <;> simp at hk
  obtain ⟨hk1, hs1⟩ := hk
  rw [← hs1] at hv
  simp [LuaMapAccess.nextValueRaw] at hv
  obtain ⟨hv1, hs2⟩ := hv
  simp [← hs2, hrest]

mutual
/-- Model of the decoder entry point: serde's type-directed `Deserialize`
dispatch (the canonical derived consumer) composed with `LuaDeserializer`'s
methods (de.rs).  Fixed-width integer decodes carry the source's
`number as T as f64 == number` guard; sequence/tuple decodes run `is_vec`;
map and struct decodes accept any table without a shape test and walk the
pairs through `LuaMapAccess` in original order; enum decodes accept a bare
tag string or a one-entry envelope table.  Unknown struct fields are
ignored, as by serde's derived impls (the model drops them without the
ignored-any traversal). -/
def decode : Ty → AnyLuaValue → DeResult NativeValue
  | .tBool, v =>
    match v with
    | .LuaBoolean b => .ok (.vBool b)
    | _ => .error (deError v)
  | .tI8, v =>
    match v with
    | .LuaNumber number =>
      if f64beq (intToF64 (f64toI8 number)) number then .ok (.vI8 (f64toI8 number))
      else .error (deError v)
    | _ => .error (deError v)
  | .tI16, v =>
    match v with
    | .LuaNumber number =>
      if f64beq (intToF64 (f64toI16 number)) number then .ok (.vI16 (f64toI16 number))
      else .error (deError v)
    | _ => .error (deError v)
  | .tI32, v =>
    match v with
    | .LuaNumber number =>
      if f64beq (intToF64 (f64toI32 number)) number then .ok (.vI32 (f64toI32 number))
      else .error (deError v)
    | _ => .error (deError v)
  | .tI64, v =>
    match v with
    | .LuaNumber number =>
      if f64beq (intToF64 (f64toI64 number)) number then .ok (.vI64 (f64toI64 number))
      else .error (deError v)
    | _ => .error (deError v)
  | .tU8, v =>
    match v with
    | .LuaNumber number =>
      if f64beq (intToF64 (f64toU8 number)) number then .ok (.vU8 (f64toU8 number))
      else .error (deError v)
    | _ => .error (deError v)
  | .tU16, v =>
    match v with
    | .LuaNumber number =>
      if f64beq (intToF64 (f64toU16 number)) number then .ok (.vU16 (f64toU16 number))
      else .error (deError v)
    | _ => .error (deError v)
  | .tU32, v =>
    match v with
    | .LuaNumber number =>
      if f64beq (intToF64 (f64toU32 number)) number then .ok (.vU32 (f64toU32 number))
      else .error (deError v)
    | _ => .error (deError v)
  | .tU64, v =>
    match v with
    | .LuaNumber number =>
      if f64beq (intToF64 (f64toU64 number)) number then .ok (.vU64 (f64toU64 number))
      else .error (deError v)
    | _ => .error (deError v)
  | .tF32, v =>
    match v with
    | .LuaNumber number => .ok (.vF32 (f32cast number))
    | _ => .error (deError v)
  | .tF64, v =>
    match v with
    | .LuaNumber number => .ok (.vF64 number)
    | _ => .error (deError v)
  | .tChar, v =>
    match v with
    | .LuaString s =>
      match s.toList with
      | [] => .error (.invalidLength 0)
      | [c] => .ok (.vChar c)
      | cs => .error (.invalidLength cs.length)
    | _ => .error (deError v)
  | .tStr, v =>
    match v with
    | .LuaString s => .ok (.vStr s)
    | _ => .error (deError v)
  | .tBytes, _ => .error (.custom "cannot deserialize bytes; compile with 'base64-bytes'")
  | .tOption t, v =>
    match v with
    | .LuaNil => .ok .vNone
    | w => do pure (.vSome (← decode t w))
  | .tUnit, v =>
    match v with
    | .LuaNil => .ok .vUnit
    | _ => .error (deError v)
  | .tUnitStruct name, v =>
    match v with
    | .LuaNil => .ok (.vUnitStruct name)
    | _ => .error (deError v)
  | .tNewtypeStruct name t, v => do pure (.vNewtypeStruct name (← decode t v))
  | .tSeq t, v =>
    match v with
    | .LuaArray ps =>
      match is_vec ps with
      | .ok sorted => do
        pure (.vSeq (← sorted.mapM (fun p => decode t p.2)))
      | .error _ => .error (.invalidType "map")
    | _ => .error (deError v)
  | .tTuple ts, v => do pure (.vTuple (← decodeTupleInner ts v))
  | .tTupleStruct name ts, v => do pure (.vTupleStruct name (← decodeTupleInner ts v))
  | .tMap kt vt, v =>
    match v with
    | .LuaArray ps => do
      pure (.vMap (← drainMap (fun x => decode kt x) (fun x => decode vt x) ⟨ps, none⟩))
    | _ => .error (deError v)
  | .tStruct name fields, v => do
    pure (.vStruct name (← decodeStructInner fields v))
  | .tEnum name variants, v =>
    match v with
    | .LuaString ident => decodeVariant name variants ident .LuaNil
    | .LuaArray ps =>
      match ps with
      | [kp] =>
        match kp.1 with
        | .LuaString ident => decodeVariant name variants ident kp.2
        | k => .error (deError k)
      | _ => .error (.invalidLength ps.length)
    | _ => .error (deError v)
termination_by t _ => (sizeOf t, 1)
decreasing_by
  all_goals simp_wf
  all_goals simp only [Prod.lex_iff]
  all_goals omega

/-- Decode a list of already-sorted table values element-wise at the tuple's
component shapes (the lengths have been checked to agree). -/
def decodeElems : List Ty → List AnyLuaValue → DeResult (List NativeValue)
  | t :: ts, w :: ws => do
    let x ← decode t w
    let xs ← decodeElems ts ws
    pure (x :: xs)
  | _, _ => .ok []
termination_by ts _ => (sizeOf ts, 0)
decreasing_by
  all_goals simp_wf
  all_goals simp only [Prod.lex_iff]
  all_goals omega

/-- The derived struct consumer: take each declared field in order, require
exactly one occurrence among the table's (string) keys, and decode its
value at the field's shape. -/
def decodeFields : List (String × Ty) → List (String × AnyLuaValue) →
    DeResult (List (String × NativeValue))
  | [], _ => .ok []
  | (fname, ft) :: rest, kvs => do
    let w ←
      match kvs.filter (fun kv => kv.1 == fname) with
      | [] => .error (.custom ("missing field " ++ fname))
      | [kv] => decode ft kv.2
      | _ => .error (.custom ("duplicate field " ++ fname))
    let tail ← decodeFields rest kvs
    pure ((fname, w) :: tail)
termination_by fields _ => (sizeOf fields, 0)
decreasing_by
  all_goals simp_wf
  all_goals simp only [Prod.lex_iff]
  all_goals omega

/-- Model of `deserialize_tuple` (shared by tuples, tuple structs and tuple
variants): require a table of exactly the expected length that passes
`is_vec`, then decode the sorted values element-wise. -/
def decodeTupleInner (ts : List Ty) (v : AnyLuaValue) : DeResult (List NativeValue) :=
  match v with
  | .LuaArray ps =>
    if ps.length ≠ ts.length then .error (.invalidLength ps.length)
    else
      match is_vec ps with
      | .ok sorted => decodeElems ts (sorted.map Prod.snd)
      | .error _ => .error (.invalidType "map")
  | _ => .error (deError v)
termination_by (sizeOf ts, 1)
decreasing_by
  all_goals simp_wf
  all_goals simp [Prod.lex_iff]

/-- Model of `deserialize_struct`/`deserialize_map` feeding the derived
struct consumer: accept any table (no shape test), decode every key as an
identifier (a string), and hand the pairs to the field consumer in original
order. -/
def decodeStructInner (fields : List (String × Ty)) (v : AnyLuaValue) :
    DeResult (List (String × NativeValue)) :=
  match v with
  | .LuaArray ps => do
    let kvs ← ps.mapM (fun p =>
      match p.1 with
      | .LuaString s => .ok (s, p.2)
      | k => .error (deError k))
    decodeFields fields kvs
  | _ => .error (deError v)
termination_by (sizeOf fields, 1)
decreasing_by
  all_goals simp_wf
  all_goals simp [Prod.lex_iff]

/-- The consumer side of enum decoding: look up the variant tag and request
the declared payload shape from the variant access object (de.rs hands the
payload to `unit_variant`/`newtype_variant_seed`/`tuple_variant`/
`struct_variant`; a unit variant requires a `Nil` payload). -/
def decodeVariant (name : String) (variants : List (String × VariantShape))
    (ident : String) (payload : AnyLuaValue) : DeResult NativeValue :=
  match variants with
  | [] => .error (.custom ("unknown variant " ++ ident))
  | (cn, cshape) :: rest =>
    if cn == ident then
      match cshape with
      | .unitShape =>
        match payload with
        | .LuaNil => .ok (.vUnitVariant name ident)
        | _ => .error (deError payload)
      | .newtypeShape t => do pure (.vNewtypeVariant name ident (← decode t payload))
      | .tupleShape ts => do
        pure (.vTupleVariant name ident (← decodeTupleInner ts payload))
      | .structShape flds => do
        pure (.vStructVariant name ident (← decodeStructInner flds payload))
    else decodeVariant name rest ident payload
termination_by (sizeOf variants, 0)
decreasing_by
  all_goals simp_wf
  all_goals simp only [Prod.lex_iff]
  all_goals omega
end

/-- The decoder entry point (lib.rs `from_lua`), at the shape the consumer's
type requests. -/
def from_lua (t : Ty) (l : AnyLuaValue) : DeResult NativeValue := decode t l

mutual
/-- The typing relation between a native value and the shape its Rust type
presents to serde: integer constructors lie in their type's range, an `f32`
value is exactly representable in binary32, aggregate lengths are within
Rust's collection bound (`isize::MAX < 2 ^ 63`), struct fields and enum
variants are declared without duplicate names, and every component is typed
by the corresponding component shape. -/
def hasTy (v : NativeValue) (t : Ty) : Bool :=
  match v with
  | .vBool _ => match t with | .tBool => true | _ => false
  | .vI8 n => match t with | .tI8 => decide (-(2 ^ 7) ≤ n ∧ n < 2 ^ 7) | _ => false
  | .vI16 n => match t with | .tI16 => decide (-(2 ^ 15) ≤ n ∧ n < 2 ^ 15) | _ => false
  | .vI32 n => match t with | .tI32 => decide (-(2 ^ 31) ≤ n ∧ n < 2 ^ 31) | _ => false
  | .vI64 n => match t with | .tI64 => decide (-(2 ^ 63) ≤ n ∧ n < 2 ^ 63) | _ => false
  | .vU8 n => match t with | .tU8 => decide (0 ≤ n ∧ n < 2 ^ 8) | _ => false
  | .vU16 n => match t with | .tU16 => decide (0 ≤ n ∧ n < 2 ^ 16) | _ => false
  | .vU32 n => match t with | .tU32 => decide (0 ≤ n ∧ n < 2 ^ 32) | _ => false
  | .vU64 n => match t with | .tU64 => decide (0 ≤ n ∧ n < 2 ^ 64) | _ => false
  | .vF32 x => match t with | .tF32 => decide (f32cast x = x) | _ => false
  | .vF64 _ => match t with | .tF64 => true | _ => false
  | .vChar _ => match t with | .tChar => true | _ => false
  | .vStr _ => match t with | .tStr => true | _ => false
  | .vBytes _ => match t with | .tBytes => true | _ => false
  | .vNone => match t with | .tOption _ => true | _ => false
  | .vSome w => match t with | .tOption t1 => hasTy w t1 | _ => false
  | .vUnit => match t with | .tUnit => true | _ => false
  | .vUnitStruct n => match t with | .tUnitStruct n2 => n == n2 | _ => false
  | .vNewtypeStruct n w =>
    match t with
    | .tNewtypeStruct n2 t1 => n == n2 && hasTy w t1
    | _ => false
  | .vUnitVariant n c =>
    match t with
    | .tEnum n2 variants =>
      n == n2 && decide ((variants.map Prod.fst).Nodup) &&
      (match variants.find? (fun cs => cs.1 == c) with
       | some (_, .unitShape) => true
       | _ => false)
    | _ => false
  | .vNewtypeVariant n c w =>
    match t with
    | .tEnum n2 variants =>
      n == n2 && decide ((variants.map Prod.fst).Nodup) &&
      (match variants.find? (fun cs => cs.1 == c) with
       | some (_, .newtypeShape t1) => hasTy w t1
       | _ => false)
    | _ => false
  | .vTupleVariant n c vs =>
    match t with
    | .tEnum n2 variants =>
      n == n2 && decide ((variants.map Prod.fst).Nodup) &&
      (match variants.find? (fun cs => cs.1 == c) with
       | some (_, .tupleShape ts) => decide (vs.length < 2 ^ 63) && hasTyTup vs ts
       | _ => false)
    | _ => false
  | .vStructVariant n c fs =>
    match t with
    | .tEnum n2 variants =>
      n == n2 && decide ((variants.map Prod.fst).Nodup) &&
      (match variants.find? (fun cs => cs.1 == c) with
       | some (_, .structShape flds) =>
         decide ((flds.map Prod.fst).Nodup) && hasTyFields fs flds
       | _ => false)
    | _ => false
  | .vSeq vs =>
    match t with
    | .tSeq t1 => decide (vs.length < 2 ^ 63) && hasTySeq vs t1
    | _ => false
  | .vTuple vs =>
    match t with
    | .tTuple ts => decide (vs.length < 2 ^ 63) && hasTyTup vs ts
    | _ => false
  | .vTupleStruct n vs =>
    match t with
    | .tTupleStruct n2 ts =>
      n == n2 && decide (vs.length < 2 ^ 63) && hasTyTup vs ts
    | _ => false
  | .vMap es =>
    match t with
    | .tMap kt vt => hasTyEntries es kt vt
    | _ => false
  | .vStruct n fs =>
    match t with
    | .tStruct n2 flds =>
      n == n2 && decide ((flds.map Prod.fst).Nodup) && hasTyFields fs flds
    | _ => false
termination_by sizeOf v
decreasing_by all_goals simp_wf <;> omega

/-- Pointwise typing of homogeneous sequence elements. -/
def hasTySeq : List NativeValue → Ty → Bool
  | [], _ => true
  | w :: ws, t => hasTy w t && hasTySeq ws t
termination_by vs _ => sizeOf vs
decreasing_by all_goals simp_wf <;> omega

/-- Pointwise typing of tuple components (lengths must agree). -/
def hasTyTup : List NativeValue → List Ty → Bool
  | [], [] => true
  | [], _ :: _ => false
  | _ :: _, [] => false
  | w :: ws, t :: ts => hasTy w t && hasTyTup ws ts
termination_by vs _ => sizeOf vs
decreasing_by all_goals simp_wf <;> omega

/-- Pointwise typing of struct fields: same names in declared order, typed
values (lengths must agree). -/
def hasTyFields : List (String × NativeValue) → List (String × Ty) → Bool
  | [], [] => true
  | [], _ :: _ => false
  | _ :: _, [] => false
  | (fn, w) :: fs, (gn, t) :: gs => fn == gn && hasTy w t && hasTyFields fs gs
termination_by fs _ => sizeOf fs
decreasing_by all_goals simp_wf <;> omega

/-- Pointwise typing of map entries at the key and value shapes. -/
def hasTyEntries : List (NativeValue × NativeValue) → Ty → Ty → Bool
  | [], _, _ => true
  | (k, w) :: es, kt, vt => hasTy k kt && hasTy w vt && hasTyEntries es kt vt
termination_by es _ _ => sizeOf es
decreasing_by all_goals simp_wf <;> omega
end

mutual
/-- The predicate `p` holds at every node of a native value tree. -/
def allValues (p : NativeValue → Bool) (v : NativeValue) : Bool :=
  p v &&
  (match v with
   | .vSome w => allValues p w
   | .vNewtypeStruct _ w => allValues p w
   | .vNewtypeVariant _ _ w => allValues p w
   | .vSeq vs => allValuesList p vs
   | .vTuple vs => allValuesList p vs
   | .vTupleStruct _ vs => allValuesList p vs
   | .vTupleVariant _ _ vs => allValuesList p vs
   | .vMap es => allValuesPairs p es
   | .vStruct _ fs => allValuesFields p fs
   | .vStructVariant _ _ fs => allValuesFields p fs
   | _ => true)
termination_by sizeOf v
decreasing_by all_goals simp_wf <;> omega

/-- `allValues` over a list of elements. -/
def allValuesList (p : NativeValue → Bool) : List NativeValue → Bool
  | [] => true
  | w :: ws => allValues p w && allValuesList p ws
termination_by vs => sizeOf vs
decreasing_by all_goals simp_wf <;> omega

/-- `allValues` over map entries. -/
def allValuesPairs (p : NativeValue → Bool) : List (NativeValue × NativeValue) → Bool
  | [] => true
  | (k, w) :: es => allValues p k && allValues p w && allValuesPairs p es
termination_by es => sizeOf es
decreasing_by all_goals simp_wf <;> omega

/-- `allValues` over struct fields. -/
def allValuesFields (p : NativeValue → Bool) : List (String × NativeValue) → Bool
  | [] => true
  | (_, w) :: fs => allValues p w && allValuesFields p fs
termination_by fs => sizeOf fs
decreasing_by all_goals simp_wf <;> omega
end

/-- The native value contains no byte data (`serde_bytes`-style values). -/
def noBytes : NativeValue → Bool :=
  allValues (fun w => match w with | .vBytes _ => false | _ => true)

/-- The native value contains no unit-typed struct field (the model has no
`#[serde(default)]` markers, so the claim hypothesis "no unit-typed field
without a default" is rendered as "no unit-typed field"). -/
def noUnitField : NativeValue → Bool :=
  allValues (fun w =>
    match w with
    | .vStruct _ fs => fs.all (fun f => match f.2 with | .vUnit => false | _ => true)
    | .vStructVariant _ _ fs => fs.all (fun f => match f.2 with | .vUnit => false | _ => true)
    | _ => true)

/-- The native value contains no present optional whose payload itself
encodes to `Nil` (no `Some(None)`, `Some(())`, and so on): for such values
the `Nil` produced by the payload is indistinguishable from an absent
option on decode. -/
def optionSafe : NativeValue → Bool :=
  allValues (fun w =>
    match w with
    | .vSome u => (match encode u with | .ok .LuaNil => false | _ => true)
    | _ => true)

/-! Arithmetic groundwork: the base-2 logarithm, grid rounding, and the
integer↔double casts. -/

theorem log2fuel_spec (fuel : Nat) : ∀ n, 1 ≤ n → n ≤ fuel →
    2 ^ log2fuel fuel n ≤ n ∧ n < 2 ^ (log2fuel fuel n + 1) := by
  induction fuel with
  | zero => intro n h1 h2; omega
  | succ f ih =>
    intro n h1 h2
    rw [log2fuel]
    by_cases hn : n < 2
    · simp [hn]; omega
    · simp [hn]
      have hrec := ih (n / 2) (by omega) (by omega)
      obtain ⟨ha, hb⟩ := hrec
      have e1 : 2 ^ (log2fuel f (n / 2) + 1) = 2 * 2 ^ log2fuel f (n / 2) := by
        rw [pow_succ]; ring
      have e2 : 2 ^ (log2fuel f (n / 2) + 1 + 1) = 2 * 2 ^ (log2fuel f (n / 2) + 1) := by
        rw [pow_succ _ (log2fuel f (n / 2) + 1)]; ring
      omega

theorem natLog2_spec (n : Nat) (h : 1 ≤ n) :
    2 ^ natLog2 n ≤ n ∧ n < 2 ^ (natLog2 n + 1) :=
  log2fuel_spec n n h le_rfl

theorem natLog2_eq_of {n k : Nat} (h1 : 2 ^ k ≤ n) (h2 : n < 2 ^ (k + 1)) :
    natLog2 n = k := by
  have hn : 1 ≤ n := le_trans Nat.one_le_two_pow h1
  obtain ⟨ha, hb⟩ := natLog2_spec n hn
  rcases Nat.lt_trichotomy (natLog2 n) k with h | h | h
  · have : 2 ^ (natLog2 n + 1) ≤ 2 ^ k := Nat.pow_le_pow_right (by omega) (by omega)
    omega
  · exact h
  · have : 2 ^ (k + 1) ≤ 2 ^ natLog2 n := Nat.pow_le_pow_right (by omega) (by omega)
    omega

theorem natLog2_le_of_le {n k : Nat} (h : n ≤ 2 ^ k) (hn : 1 ≤ n) : natLog2 n ≤ k := by
  obtain ⟨ha, _⟩ := natLog2_spec n hn
  by_contra hc
  have : 2 ^ (k + 1) ≤ 2 ^ natLog2 n := Nat.pow_le_pow_right (by omega) (by omega)
  have : 2 ^ k < 2 ^ (k + 1) := Nat.pow_lt_pow_right (by omega) (by omega)
  omega

theorem natLog2_ge_of_ge {n k : Nat} (h : 2 ^ k ≤ n) : k ≤ natLog2 n := by
  have hn : 1 ≤ n := le_trans Nat.one_le_two_pow h
  obtain ⟨_, hb⟩ := natLog2_spec n hn
  by_contra hc
  have : 2 ^ (natLog2 n + 1) ≤ 2 ^ k := Nat.pow_le_pow_right (by omega) (by omega)
  omega

theorem gridRound_cases (g n : Nat) :
    gridRound g n = (n / g) * g ∨ gridRound g n = (n / g + 1) * g := by
  unfold gridRound
  split
  · left; rfl
  · split
    · right; rfl
    · split
      · left; rfl
      · right; rfl

theorem gridRound_of_dvd {g n : Nat} (hg : 0 < g) (h : g ∣ n) : gridRound g n = n := by
  have hmod : n % g = 0 := Nat.mod_eq_zero_of_dvd h
  unfold gridRound
  rw [hmod]
  rw [if_pos (by omega)]
  exact Nat.div_mul_cancel h

theorem gridRound_ge (g n : Nat) : (n / g) * g ≤ gridRound g n := by
  rcases gridRound_cases g n with h | h <;> rw [h] <;>
    exact Nat.mul_le_mul_right _ (by omega)

theorem gridRound_le (g n : Nat) : gridRound g n ≤ (n / g + 1) * g := by
  rcases gridRound_cases g n with h | h <;> rw [h] <;>
    exact Nat.mul_le_mul_right _ (by omega)

theorem gridRound_mono {g a b : Nat} (hg : 0 < g) (hab : a ≤ b) :
    gridRound g a ≤ gridRound g b := by
  have hq : a / g ≤ b / g := Nat.div_le_div_right hab
  rcases Nat.lt_or_ge (a / g) (b / g) with hlt | hge
  · calc gridRound g a ≤ (a / g + 1) * g := gridRound_le g a
      _ ≤ (b / g) * g := Nat.mul_le_mul_right _ (by omega)
      _ ≤ gridRound g b := gridRound_ge g b
  · have he : a / g = b / g := by omega
    have hrm : a % g ≤ b % g := by
      have da := Nat.div_add_mod a g
      have db := Nat.div_add_mod b g
      rw [he] at da
      omega
    unfold gridRound
    rw [he]
    split_ifs <;> first
    | exact Nat.mul_le_mul_right _ (by omega)
    | omega

theorem round53_small {n : Nat} (h : n < 2 ^ 53) : round53 n = n := by
  unfold round53; rw [if_pos h]

theorem round53_ge_pow {n : Nat} (h : 2 ^ 53 ≤ n) : 2 ^ natLog2 n ≤ round53 n := by
  have hk : 53 ≤ natLog2 n := natLog2_ge_of_ge h
  have hgpos : 0 < 2 ^ (natLog2 n - 52) := Nat.pos_pow_of_pos _ (by omega)
  have hsum : 2 ^ 52 * 2 ^ (natLog2 n - 52) = 2 ^ natLog2 n := by
    rw [← pow_add]; congr 1; omega
  have hle : 2 ^ natLog2 n ≤ n := (natLog2_spec n (by omega)).1
  have hq : 2 ^ 52 ≤ n / 2 ^ (natLog2 n - 52) := by
    rw [Nat.le_div_iff_mul_le hgpos, hsum]; exact hle
  have := gridRound_ge (2 ^ (natLog2 n - 52)) n
  unfold round53
  rw [if_neg (by omega)]
  calc 2 ^ natLog2 n = 2 ^ 52 * 2 ^ (natLog2 n - 52) := hsum.symm
    _ ≤ (n / 2 ^ (natLog2 n - 52)) * 2 ^ (natLog2 n - 52) := Nat.mul_le_mul_right _ hq
    _ ≤ gridRound (2 ^ (natLog2 n - 52)) n := gridRound_ge _ n

theorem round53_le_pow_succ {n : Nat} (h : 2 ^ 53 ≤ n) :
    round53 n ≤ 2 ^ (natLog2 n + 1) := by
  have hk : 53 ≤ natLog2 n := natLog2_ge_of_ge h
  have hgpos : 0 < 2 ^ (natLog2 n - 52) := Nat.pos_pow_of_pos _ (by omega)
  have hsum : 2 ^ 53 * 2 ^ (natLog2 n - 52) = 2 ^ (natLog2 n + 1) := by
    rw [← pow_add]; congr 1; omega
  have hlt : n < 2 ^ (natLog2 n + 1) := (natLog2_spec n (by omega)).2
  have hq : n / 2 ^ (natLog2 n - 52) < 2 ^ 53 := by
    rw [Nat.div_lt_iff_lt_mul hgpos]
    calc n < 2 ^ (natLog2 n + 1) := hlt
      _ = 2 ^ 53 * 2 ^ (natLog2 n - 52) := hsum.symm
  unfold round53
  rw [if_neg (by omega)]
  calc gridRound (2 ^ (natLog2 n - 52)) n
      ≤ (n / 2 ^ (natLog2 n - 52) + 1) * 2 ^ (natLog2 n - 52) := gridRound_le _ n
    _ ≤ 2 ^ 53 * 2 ^ (natLog2 n - 52) := Nat.mul_le_mul_right _ (by omega)
    _ = 2 ^ (natLog2 n + 1) := hsum

theorem round53_pow (e : Nat) : round53 (2 ^ e) = 2 ^ e := by
  by_cases hs : 2 ^ e < 2 ^ 53
  · exact round53_small hs
  · push_neg at hs
    have he53 : 53 ≤ e := by
      by_contra hc
      have : 2 ^ e < 2 ^ 53 := Nat.pow_lt_pow_right (by omega) (by omega)
      omega
    have hk : natLog2 (2 ^ e) = e :=
      natLog2_eq_of le_rfl (Nat.pow_lt_pow_right (by omega) (by omega))
    unfold round53
    rw [if_neg (by omega), hk]
    exact gridRound_of_dvd (Nat.pos_pow_of_pos _ (by omega))
      (pow_dvd_pow 2 (by omega))

theorem round53_le_two_pow {n e : Nat} (h : n ≤ 2 ^ e) : round53 n ≤ 2 ^ e := by
  by_cases hs : n < 2 ^ 53
  · rw [round53_small hs]; exact h
  · push_neg at hs
    rcases Nat.lt_or_ge n (2 ^ e) with hlt | hge
    · have hk : natLog2 n + 1 ≤ e := by
        have h1 : 2 ^ natLog2 n ≤ n := (natLog2_spec n (by omega)).1
        by_contra hc
        have : 2 ^ e ≤ 2 ^ natLog2 n := Nat.pow_le_pow_right (by omega) (by omega)
        omega
      calc round53 n ≤ 2 ^ (natLog2 n + 1) := round53_le_pow_succ hs
        _ ≤ 2 ^ e := Nat.pow_le_pow_right (by omega) hk
    · have : n = 2 ^ e := by omega
      rw [this, round53_pow]

theorem natLog2_mul_pow {m s : Nat} (hm : 1 ≤ m) :
    natLog2 (m * 2 ^ s) = natLog2 m + s := by
  have h1 := (natLog2_spec m hm).1
  have h2 := (natLog2_spec m hm).2
  apply natLog2_eq_of
  · rw [pow_add]; exact Nat.mul_le_mul_right _ h1
  · have : natLog2 m + s + 1 = (natLog2 m + 1) + s := by omega
    rw [this, pow_add]
    exact Nat.mul_lt_mul_right (Nat.pos_pow_of_pos _ (by omega)) |>.mpr h2

theorem round53_rep {m s : Nat} (hm : m ≤ 2 ^ 53) : round53 (m * 2 ^ s) = m * 2 ^ s := by
  by_cases hs : m * 2 ^ s < 2 ^ 53
  · exact round53_small hs
  · push_neg at hs
    have hm1 : 1 ≤ m := by
      rcases Nat.eq_zero_or_pos m with h0 | h1
      · rw [h0] at hs; simp at hs
      · exact h1
    unfold round53
    rw [if_neg (by omega)]
    apply gridRound_of_dvd (Nat.pos_pow_of_pos _ (by omega))
    rcases Nat.lt_or_ge m (2 ^ 53) with hlt | hge
    · have hLm : natLog2 m ≤ 52 := by
        by_contra hc
        have h1 := (natLog2_spec m hm1).1
        have : 2 ^ 53 ≤ 2 ^ natLog2 m := Nat.pow_le_pow_right (by omega) (by omega)
        omega
      rw [natLog2_mul_pow hm1]
      exact dvd_mul_of_dvd_right (pow_dvd_pow 2 (by omega)) m
    · have hme : m = 2 ^ 53 := by omega
      subst hme
      rw [natLog2_mul_pow hm1]
      have hk : natLog2 (2 ^ 53) = 53 :=
        natLog2_eq_of le_rfl (Nat.pow_lt_pow_right (by omega) (by omega))
      rw [hk, ← pow_add]
      exact pow_dvd_pow 2 (by omega)

theorem round53_result_rep {n : Nat} (h : 2 ^ 53 ≤ n) :
    ∃ m, m ≤ 2 ^ 53 ∧ round53 n = m * 2 ^ (natLog2 n - 52) := by
  have hk : 53 ≤ natLog2 n := natLog2_ge_of_ge h
  have hgpos : 0 < 2 ^ (natLog2 n - 52) := Nat.pos_pow_of_pos _ (by omega)
  have hsum : 2 ^ 53 * 2 ^ (natLog2 n - 52) = 2 ^ (natLog2 n + 1) := by
    rw [← pow_add]; congr 1; omega
  have hlt : n < 2 ^ (natLog2 n + 1) := (natLog2_spec n (by omega)).2
  have hq : n / 2 ^ (natLog2 n - 52) < 2 ^ 53 := by
    rw [Nat.div_lt_iff_lt_mul hgpos]
    omega
  have hr : round53 n = gridRound (2 ^ (natLog2 n - 52)) n := by
    unfold round53; rw [if_neg (by omega)]
  rcases gridRound_cases (2 ^ (natLog2 n - 52)) n with hc | hc
  · exact ⟨n / 2 ^ (natLog2 n - 52), by omega, by rw [hr, hc]⟩
  · exact ⟨n / 2 ^ (natLog2 n - 52) + 1, by omega, by rw [hr, hc]⟩

theorem round53_idem (n : Nat) : round53 (round53 n) = round53 n := by
  by_cases hs : n < 2 ^ 53
  · rw [round53_small hs, round53_small hs]
  · push_neg at hs
    obtain ⟨m, hm, he⟩ := round53_result_rep hs
    rw [he]
    exact round53_rep hm

theorem round53_mono {a b : Nat} (h : a ≤ b) : round53 a ≤ round53 b := by
  by_cases ha : a < 2 ^ 53
  · by_cases hb : b < 2 ^ 53
    · rw [round53_small ha, round53_small hb]; exact h
    · push_neg at hb
      rw [round53_small ha]
      have h1 := round53_ge_pow hb
      have h2 : 53 ≤ natLog2 b := natLog2_ge_of_ge hb
      have h3 : 2 ^ 53 ≤ 2 ^ natLog2 b := Nat.pow_le_pow_right (by omega) h2
      omega
  · push_neg at ha
    have hb : 2 ^ 53 ≤ b := le_trans ha h
    have hka : 53 ≤ natLog2 a := natLog2_ge_of_ge ha
    have hmono : natLog2 a ≤ natLog2 b := by
      have s1 := (natLog2_spec a (by omega)).1
      have s2 := (natLog2_spec b (by omega)).2
      by_contra hc
      have : 2 ^ (natLog2 b + 1) ≤ 2 ^ natLog2 a := Nat.pow_le_pow_right (by omega) (by omega)
      omega
    rcases Nat.eq_or_lt_of_le hmono with he | hlt
    · unfold round53
      rw [if_neg (by omega), if_neg (by omega), he]
      exact gridRound_mono (Nat.pos_pow_of_pos _ (by omega)) h
    · calc round53 a ≤ 2 ^ (natLog2 a + 1) := round53_le_pow_succ ha
        _ ≤ 2 ^ natLog2 b := Nat.pow_le_pow_right (by omega) (by omega)
        _ ≤ round53 b := round53_ge_pow hb

theorem round53_pos {n : Nat} (h : 1 ≤ n) : 1 ≤ round53 n := by
  have := round53_mono h
  rw [round53_small (by norm_num : (1 : Nat) < 2 ^ 53)] at this
  exact this

/-! Casting lemmas connecting `intToF64`, `truncRat` and the usize cast. -/

theorem intToF64_natCast {n : Nat} (h : round53 n < 2 ^ 1024) :
    intToF64 (n : Int) = .fin ((round53 n : Nat) : ℚ) := by
  unfold intToF64
  have h1 : (Int.ofNat n).natAbs = n := rfl
  have h2 : ¬ ((n : Int) < 0) := by omega
  simp only [Int.natAbs_ofNat]
  rw [if_neg (by omega), if_neg h2]

theorem truncRat_intCast (m : Int) : truncRat (m : ℚ) = m := by
  unfold truncRat
  have hf : ∀ q : ℚ, q.floor = ⌊q⌋ := fun _ => rfl
  by_cases h : 0 ≤ (m : ℚ)
  · rw [if_pos h, hf, Int.floor_intCast]
  · rw [if_neg h]
    have hcast : -(m : ℚ) = ((-m : Int) : ℚ) := by push_cast; ring
    rw [hcast, hf, Int.floor_intCast]
    ring

theorem truncRat_natCast (n : Nat) : truncRat ((n : Nat) : ℚ) = (n : Int) := by
  have : ((n : Nat) : ℚ) = ((n : Int) : ℚ) := by push_cast; ring
  rw [this, truncRat_intCast]

theorem f64toU64_fin_nat {r : Nat} (h : r ≤ 2 ^ 63) :
    f64toU64 (.fin ((r : Nat) : ℚ)) = (r : Int) := by
  unfold f64toU64 f64toInt
  simp only [truncRat_natCast]
  rw [if_neg (by omega), if_neg (by omega)]

theorem f64toUsize_fin_nat {r : Nat} (h : r ≤ 2 ^ 63) :
    f64toUsize (.fin ((r : Nat) : ℚ)) = r := by
  unfold f64toUsize
  rw [f64toU64_fin_nat h]
  exact Int.toNat_ofNat r

/-- The facts about `n as f64` needed for the array-shape check, for an index
`n` in the range a Rust collection can have: the cast produces the finite
value `round53 n`, which survives the `as usize` cast and reproduces itself
when cast to `f64` again. -/
theorem intToF64_package {n : Nat} (h1 : 1 ≤ n) (h2 : n ≤ 2 ^ 63) :
    intToF64 (n : Int) = .fin ((round53 n : Nat) : ℚ) ∧
    f64toUsize (.fin ((round53 n : Nat) : ℚ)) = round53 n ∧
    intToF64 ((round53 n : Nat) : Int) = .fin ((round53 n : Nat) : ℚ) ∧
    1 ≤ round53 n ∧ round53 n ≤ 2 ^ 63 := by
  have hle : round53 n ≤ 2 ^ 63 := round53_le_two_pow h2
  have hlt : round53 n < 2 ^ 1024 := by
    have : (2 : Nat) ^ 63 < 2 ^ 1024 := Nat.pow_lt_pow_right (by omega) (by omega)
    omega
  have hpos := round53_pos h1
  refine ⟨intToF64_natCast hlt, f64toUsize_fin_nat hle, ?_, hpos, hle⟩
  have hidem := round53_idem n
  have hlt2 : round53 (round53 n) < 2 ^ 1024 := by rw [hidem]; exact hlt
  rw [intToF64_natCast hlt2, hidem]

/-! Lemmas about IEEE equality. -/

theorem f64beq_fin_iff {a b : ℚ} : f64beq (.fin a) (.fin b) = true ↔ a = b := by
  simp [f64beq]

theorem f64beq_eq_fin {x : F64} {r : ℚ} (h : f64beq x (.fin r) = true) : x = .fin r := by
  cases x <;> simp [f64beq] at h ⊢ <;> exact h

theorem f64beq_eq_inf {x : F64} {b : Bool} (h : f64beq x (.inf b) = true) : x = .inf b := by
  cases x <;> simp [f64beq] at h ⊢ <;> exact h

theorem f64beq_fin_self (a : ℚ) : f64beq (.fin a) (.fin a) = true := by
  simp [f64beq]

theorem f64beq_inf_self (b : Bool) : f64beq (.inf b) (.inf b) = true := by
  simp [f64beq]

theorem intToF64_ne_nan (n : Int) : intToF64 n ≠ .nan := by
  unfold intToF64
  split <;> simp only [] <;> split <;> simp

/-! The stable sort is the identity on key-sorted input. -/

theorem sortByKey_eq_self {α : Type} {k : α → Nat} :
    ∀ {l : List α}, l.Chain' (fun a b => k a ≤ k b) → sortByKey k l = l := by
  intro l
  induction l with
  | nil => intro _; rfl
  | cons x xs ih =>
    intro hch
    have htail : xs.Chain' (fun a b => k a ≤ k b) := hch.tail
    rw [sortByKey, ih htail]
    cases xs with
    | nil => rfl
    | cons y ys =>
      have hxy : k x ≤ k y := (List.chain'_cons.mp hch).1
      rw [insertByKey, if_pos hxy]

/-! Characterizations of `is_vec`. -/

theorem is_vec_error_eq {array u : List (AnyLuaValue × AnyLuaValue)}
    (h : is_vec array = .error u) : u = array := by
  unfold is_vec at h
  split at h
  · injection h with h3; exact h3.symm
  · simp only [] at h
    split at h
    · exact absurd h (by simp)
    · injection h with h3; exact h3.symm

theorem is_vec_ok_parts {array s : List (AnyLuaValue × AnyLuaValue)}
    (h : is_vec array = .ok s) :
    s = sortByKey luaSortKey array ∧
    (array.enum.all fun ip =>
      match ip.2.1 with
      | .LuaNumber number =>
          f64beq (intToF64 ((f64toUsize number : Nat) : Int)) number &&
          f64beq number (intToF64 ((ip.1 : Int) + 1))
      | _ => false) = true := by
  unfold is_vec at h
  split at h
  · exact absurd h (by simp)
  · simp only [] at h
    split at h
    · rename_i h2
      refine ⟨?_, h2⟩
      injection h with h3
      exact h3.symm
    · exact absurd h (by simp)

/-- Rust `n as f64 as usize` for a natural number: the rounded value, capped
at `usize::MAX`. -/
theorem f64toUsize_intToF64 (n : Nat) :
    f64toUsize (intToF64 (n : Int)) = min (round53 n) (2 ^ 64 - 1) := by
  unfold intToF64
  simp only [Int.natAbs_ofNat]
  have hneg : ¬ ((n : Int) < 0) := by omega
  split_ifs with hbig
  · have hge : (2 : Nat) ^ 64 - 1 < 2 ^ 1024 := by norm_num
    have hd : decide ((n : Int) < 0) = false := by simp [hneg]
    rw [hd]
    simp only [f64toUsize, f64toU64, f64toInt]
    norm_num
    omega
  · simp only [f64toUsize, f64toU64, f64toInt, truncRat_natCast]
    split_ifs <;> omega

theorem f64toUsize_intToF64_mono {a b : Nat} (h : a ≤ b) :
    f64toUsize (intToF64 (a : Int)) ≤ f64toUsize (intToF64 (b : Int)) := by
  rw [f64toUsize_intToF64, f64toUsize_intToF64]
  have := round53_mono h
  omega

theorem is_vec_ok_eq_self {array s : List (AnyLuaValue × AnyLuaValue)}
    (h : is_vec array = .ok s) : s = array := by
  obtain ⟨hs, hall⟩ := is_vec_ok_parts h
  rw [hs]
  apply sortByKey_eq_self
  have hkey : ∀ i (hi : i < array.length),
      luaSortKey (array.get ⟨i, hi⟩) = f64toUsize (intToF64 ((i + 1 : Nat) : Int)) := by
    intro i hi
    have hmem : ((i : Nat), array.get ⟨i, hi⟩) ∈ array.enum := by
      rw [List.mem_iff_getElem]
      exact ⟨i, by simpa using hi, by rw [List.getElem_enum]; rfl⟩
    have hcheck := (List.all_eq_true.mp hall) _ hmem
    simp only [] at hcheck
    cases harr : (array.get ⟨i, hi⟩).1 with
    | LuaNumber x0 =>
      rw [harr] at hcheck
      simp only [Bool.and_eq_true] at hcheck
      have hx : x0 = intToF64 ((i : Int) + 1) := by
        have hnn := intToF64_ne_nan ((i : Int) + 1)
        rcases hcast : intToF64 ((i : Int) + 1) with _ | b1 | r1
        · exact absurd hcast hnn
        · rw [hcast] at hcheck
          exact f64beq_eq_inf hcheck.2
        · rw [hcast] at hcheck
          exact f64beq_eq_fin hcheck.2
      unfold luaSortKey
      rw [harr, hx]
      simp only []
      congr 2
    | LuaString s0 => rw [harr] at hcheck; simp at hcheck
    | LuaAnyString bs0 => rw [harr] at hcheck; simp at hcheck
    | LuaBoolean b0 => rw [harr] at hcheck; simp at hcheck
    | LuaArray ps0 => rw [harr] at hcheck; simp at hcheck
    | LuaNil => rw [harr] at hcheck; simp at hcheck
    | LuaOther => rw [harr] at hcheck; simp at hcheck
  rw [List.chain'_iff_get]
  intro i hlt
  rw [hkey i (by omega), hkey (i + 1) (by omega)]
  exact f64toUsize_intToF64_mono (by omega)


/-- If in the original iteration the i-th key is the lua number `i + 1`, the
table is classified array-shaped and (the sort being the identity) `is_vec`
returns the input itself. -/
theorem is_vec_ok_of_positional {array : List (AnyLuaValue × AnyLuaValue)}
    (hlen : array.length ≤ 2 ^ 63)
    (hpos : ∀ i (hi : i < array.length),
      (array.get ⟨i, hi⟩).1 = .LuaNumber (intToF64 ((i + 1 : Nat) : Int))) :
    is_vec array = .ok array := by
  have hany : (array.any fun p =>
      match p.1 with | .LuaNumber _ => false | _ => true) = false := by
    rw [Bool.eq_false_iff]
    intro hc
    obtain ⟨x, hxm, hxp⟩ := List.any_eq_true.mp hc
    obtain ⟨j, hj, hget⟩ := List.mem_iff_getElem.mp hxm
    have hkey := hpos j hj
    have hg2 : array.get ⟨j, hj⟩ = array[j] := List.get_eq_getElem array ⟨j, hj⟩
    rw [hg2, hget] at hkey
    rw [hkey] at hxp
    simp at hxp
  have hall : (array.enum.all fun ip =>
      match ip.2.1 with
      | .LuaNumber number =>
          f64beq (intToF64 ((f64toUsize number : Nat) : Int)) number &&
          f64beq number (intToF64 ((ip.1 : Int) + 1))
      | _ => false) = true := by
    rw [List.all_eq_true]
    intro ip hipm
    obtain ⟨j, hj, hget⟩ := List.mem_iff_getElem.mp hipm
    rw [List.getElem_enum] at hget
    have hjlen : j < array.length := by
      have : array.enum.length = array.length := List.enum_length
      omega
    obtain ⟨hp1, hp2, hp3, hp4, hp5⟩ :=
      intToF64_package (n := j + 1) (by omega) (by omega)
    have hkey := hpos j hjlen
    rw [← hget]
    simp only []
    have hgetj : array[j] = array.get ⟨j, hjlen⟩ :=
      (List.get_eq_getElem array ⟨j, hjlen⟩).symm
    rw [hgetj, hkey]
    simp only []
    have hcast : ((j : Int) + 1) = ((j + 1 : Nat) : Int) := by push_cast; ring
    rw [hcast, hp1, hp2, hp3]
    simp [f64beq_fin_self]
  rcases hv : is_vec array with e | sorted
  · exfalso
    unfold is_vec at hv
    rw [hany] at hv
    simp only [] at hv
    rw [hall] at hv
    simp at hv
  · rw [is_vec_ok_eq_self hv]

/-- C3: `is_vec` classifies a table as array-shaped exactly when, iterating
the pairs in their original unsorted order, the i-th pair's key is the lua
number `i + 1`; any failure of this positional check (gaps, duplicates,
out-of-order or non-numeric keys) lands in the failure branch, which returns
the original pairs unchanged.  The length hypothesis is Rust's collection
bound (`Vec` never exceeds `isize::MAX` elements); "key equals i + 1" is
stated as equality with the lua number `(i + 1) as f64`. -/
theorem is_vec_array_shape_iff (array : List (AnyLuaValue × AnyLuaValue))
    (hlen : array.length ≤ 2 ^ 63) :
    ((is_vec array).isOk = true ↔
      ∀ i (hi : i < array.length),
        (array.get ⟨i, hi⟩).1 = .LuaNumber (intToF64 ((i + 1 : Nat) : Int))) ∧
    ∀ u, is_vec array = .error u → u = array := by
  refine ⟨⟨?_, ?_⟩, fun u hu => is_vec_error_eq hu⟩
  · intro hok i hi
    rcases hv : is_vec array with e | sorted
    · rw [hv] at hok; simp [Except.isOk, Except.toBool] at hok
    · obtain ⟨_, hall⟩ := is_vec_ok_parts hv
      have hmem : ((i : Nat), array.get ⟨i, hi⟩) ∈ array.enum := by
        rw [List.mem_iff_getElem]
        exact ⟨i, by simpa using hi, by rw [List.getElem_enum]; rfl⟩
      have hcheck := (List.all_eq_true.mp hall) _ hmem
      simp only [] at hcheck
      cases harr : (array.get ⟨i, hi⟩).1 with
      | LuaNumber x0 =>
        rw [harr] at hcheck
        simp only [Bool.and_eq_true] at hcheck
        have hcast : ((i : Int) + 1) = ((i + 1 : Nat) : Int) := by push_cast; ring
        have hx : x0 = intToF64 ((i + 1 : Nat) : Int) := by
          have hnn := intToF64_ne_nan ((i : Int) + 1)
          rcases hcast2 : intToF64 ((i : Int) + 1) with _ | b1 | r1
          · exact absurd hcast2 hnn
          · rw [hcast2] at hcheck
            rw [← hcast, hcast2]
            exact f64beq_eq_inf hcheck.2
          · rw [hcast2] at hcheck
            rw [← hcast, hcast2]
            exact f64beq_eq_fin hcheck.2
        rw [hx]
      | LuaString s0 => rw [harr] at hcheck; simp at hcheck
      | LuaAnyString bs0 => rw [harr] at hcheck; simp at hcheck
      | LuaBoolean b0 => rw [harr] at hcheck; simp at hcheck
      | LuaArray ps0 => rw [harr] at hcheck; simp at hcheck
      | LuaNil => rw [harr] at hcheck; simp at hcheck
      | LuaOther => rw [harr] at hcheck; simp at hcheck
  · intro hpos
    rw [is_vec_ok_of_positional hlen hpos]
    simp [Except.isOk, Except.toBool]

/-- C3 witness: the classification applied to the one-pair table with key 1. -/
theorem is_vec_array_shape_iff_witness :
    ((is_vec [(.LuaNumber (intToF64 1), .LuaNil)]).isOk = true ↔
      ∀ i (hi : i < [((.LuaNumber (intToF64 1) : AnyLuaValue), (.LuaNil : AnyLuaValue))].length),
        ([((.LuaNumber (intToF64 1) : AnyLuaValue), (.LuaNil : AnyLuaValue))].get ⟨i, hi⟩).1 =
          .LuaNumber (intToF64 ((i + 1 : Nat) : Int))) ∧
    ∀ u, is_vec [(.LuaNumber (intToF64 1), .LuaNil)] = .error u →
      u = [(.LuaNumber (intToF64 1), .LuaNil)] :=
  is_vec_array_shape_iff [(.LuaNumber (intToF64 1), .LuaNil)] (by norm_num)

/-- C10: whenever `is_vec` takes its success branch, the sorted copy it
returns is the original list unchanged: the positional check forces the keys
to already be in ascending order, so the stable sort is the identity. -/
theorem is_vec_ok_returns_input (array s : List (AnyLuaValue × AnyLuaValue))
    (h : is_vec array = .ok s) : s = array :=
  is_vec_ok_eq_self h

/-- C10 witness: the success branch on a concrete two-pair table. -/
theorem is_vec_ok_returns_input_witness :
    [((.LuaNumber (intToF64 1) : AnyLuaValue), (.LuaBoolean true : AnyLuaValue)),
     (.LuaNumber (intToF64 2), .LuaNil)] =
    [(.LuaNumber (intToF64 1), .LuaBoolean true), (.LuaNumber (intToF64 2), .LuaNil)] :=
  is_vec_ok_returns_input _ _ (by rfl)

/-- C2: the code (contradicting its own doc comment and the crate's intent)
rejects a table whose keys are exactly `{1, 2, 3}` but arrive out of order:
`is_vec` runs the positional check on the original order and classifies the
table as map-shaped, so decoding it as a sequence fails with a type error
instead of producing the 3-element sequence in ascending key order. -/
theorem permuted_array_table_rejected :
    is_vec [(.LuaNumber (intToF64 2), .LuaNumber (intToF64 20)),
            (.LuaNumber (intToF64 1), .LuaNumber (intToF64 10)),
            (.LuaNumber (intToF64 3), .LuaNumber (intToF64 30))] =
      .error [(.LuaNumber (intToF64 2), .LuaNumber (intToF64 20)),
              (.LuaNumber (intToF64 1), .LuaNumber (intToF64 10)),
              (.LuaNumber (intToF64 3), .LuaNumber (intToF64 30))] ∧
    decode (.tSeq .tF64)
      (.LuaArray [(.LuaNumber (intToF64 2), .LuaNumber (intToF64 20)),
                  (.LuaNumber (intToF64 1), .LuaNumber (intToF64 10)),
                  (.LuaNumber (intToF64 3), .LuaNumber (intToF64 30))]) =
      .error (.invalidType "map") := by
  constructor
  · rfl
  · have hv : is_vec [(.LuaNumber (intToF64 2), .LuaNumber (intToF64 20)),
        (.LuaNumber (intToF64 1), .LuaNumber (intToF64 10)),
        (.LuaNumber (intToF64 3), .LuaNumber (intToF64 30))] =
      .error [(.LuaNumber (intToF64 2), .LuaNumber (intToF64 20)),
              (.LuaNumber (intToF64 1), .LuaNumber (intToF64 10)),
              (.LuaNumber (intToF64 3), .LuaNumber (intToF64 30))] := rfl
    simp [decode, hv]


/-- Reduction of an `Except` bind on a success head. -/
theorem except_bind_ok {ε α β : Type} (x : α) (f : α → Except ε β) :
    (Except.ok x >>= f) = f x := rfl

/-- Reduction of an `Except` bind on an error head. -/
theorem except_bind_error {ε α β : Type} (e : ε) (f : α → Except ε β) :
    ((Except.error e : Except ε α) >>= f) = Except.error e := rfl

/-- `pure` into `Except` is `ok`. -/
theorem except_pure_eq {ε α : Type} (x : α) : (pure x : Except ε α) = Except.ok x := rfl

/-- Eliminating `attach` from a monadic fold over `Except` (the shape the
encoder uses to thread its builder state through a list). -/
theorem foldlM_attach_gen {α σ ε : Type} (f : σ → α → Except ε σ) :
    ∀ (l : List α) (st : σ),
      l.attach.foldlM (fun s x => f s x.1) st = l.foldlM f st := by
  intro l
  induction l with
  | nil => intro st; rfl
  | cons a xs ih =>
    intro st
    simp only [List.attach_cons, List.foldlM_cons, List.foldlM_map]
    cases hsa : f st a with
    | error e => simp [bind, Except.bind, hsa]
    | ok st2 => simp [bind, Except.bind, hsa, ih st2]

/-- Eliminating `attach` from the encoder's sequence-builder fold. -/
theorem attach_foldlM_seq :
    ∀ (l : List NativeValue) (st : LuaSerializeSeq),
      l.attach.foldlM (fun st vh => st.serialize_element (encode vh.1)) st =
      l.foldlM (fun st v => st.serialize_element (encode v)) st :=
  foldlM_attach_gen (fun (st : LuaSerializeSeq) v => st.serialize_element (encode v))

/-- Eliminating `attach` from the encoder's map-entry fold. -/
theorem attach_foldlM_entries :
    ∀ (l : List (NativeValue × NativeValue)) (st : LuaSerializeMap),
      l.attach.foldlM
        (fun st vh => st.serialize_entry (encode vh.1.1) (encode vh.1.2)) st =
      l.foldlM (fun st kv => st.serialize_entry (encode kv.1) (encode kv.2)) st :=
  foldlM_attach_gen (fun (st : LuaSerializeMap) (kv : NativeValue × NativeValue) => st.serialize_entry (encode kv.1) (encode kv.2))

/-- Eliminating `attach` from the encoder's struct-field fold. -/
theorem attach_foldlM_fields :
    ∀ (l : List (String × NativeValue)) (st : LuaSerializeMap),
      l.attach.foldlM
        (fun st vh => st.serialize_entry (.ok (.LuaString vh.1.1)) (encode vh.1.2)) st =
      l.foldlM (fun st f => st.serialize_entry (.ok (.LuaString f.1)) (encode f.2)) st :=
  foldlM_attach_gen (fun (st : LuaSerializeMap) (f : String × NativeValue) => st.serialize_entry (.ok (.LuaString f.1)) (encode f.2))

/-- Shape of the encoder on sequences, with `attach` eliminated. -/
theorem encode_vSeq (vs : List NativeValue) :
    encode (.vSeq vs) =
      (do
        let st ← vs.foldlM (fun st v => st.serialize_element (encode v))
          (⟨[]⟩ : LuaSerializeSeq)
        seq_end st) := by
  rw [encode, attach_foldlM_seq]

/-- Shape of the encoder on tuples, with `attach` eliminated. -/
theorem encode_vTuple (vs : List NativeValue) :
    encode (.vTuple vs) =
      (do
        let st ← vs.foldlM (fun st v => st.serialize_element (encode v))
          (⟨[]⟩ : LuaSerializeSeq)
        seq_end st) := by
  rw [encode, attach_foldlM_seq]

/-- Shape of the encoder on tuple structs, with `attach` eliminated. -/
theorem encode_vTupleStruct (nm : String) (vs : List NativeValue) :
    encode (.vTupleStruct nm vs) =
      (do
        let st ← vs.foldlM (fun st v => st.serialize_element (encode v))
          (⟨[]⟩ : LuaSerializeSeq)
        seq_end st) := by
  rw [encode, attach_foldlM_seq]

/-- Shape of the encoder on tuple variants, with `attach` eliminated. -/
theorem encode_vTupleVariant (nm c : String) (vs : List NativeValue) :
    encode (.vTupleVariant nm c vs) =
      (do
        let st ← vs.foldlM (fun st v => st.serialize_element (encode v))
          (⟨[]⟩ : LuaSerializeSeq)
        let l ← seq_end st
        pure (.LuaArray [(.LuaString c, l)])) := by
  rw [encode, attach_foldlM_seq]

/-- Shape of the encoder on maps, with `attach` eliminated. -/
theorem encode_vMap (entries : List (NativeValue × NativeValue)) :
    encode (.vMap entries) =
      (do
        let st ← entries.foldlM
          (fun st kv => st.serialize_entry (encode kv.1) (encode kv.2))
          (⟨[]⟩ : LuaSerializeMap)
        map_end st) := by
  rw [encode, attach_foldlM_entries]

/-- Shape of the encoder on structs, with `attach` eliminated. -/
theorem encode_vStruct (nm : String) (fields : List (String × NativeValue)) :
    encode (.vStruct nm fields) =
      (do
        let st ← fields.foldlM
          (fun st f => st.serialize_entry (.ok (.LuaString f.1)) (encode f.2))
          (⟨[]⟩ : LuaSerializeMap)
        map_end st) := by
  rw [encode, attach_foldlM_fields]

/-- Shape of the encoder on struct variants, with `attach` eliminated. -/
theorem encode_vStructVariant (nm c : String) (fields : List (String × NativeValue)) :
    encode (.vStructVariant nm c fields) =
      (do
        let st ← fields.foldlM
          (fun st f => st.serialize_entry (.ok (.LuaString f.1)) (encode f.2))
          (⟨[]⟩ : LuaSerializeMap)
        let l ← map_end st
        pure (.LuaArray [(.LuaString c, l)])) := by
  rw [encode, attach_foldlM_fields]

/-- A successful `mapM` over `Except`: the lengths agree and the function
succeeded pointwise with the corresponding output element. -/
theorem mapM_ok_spec {α β ε : Type} (f : α → Except ε β) :
    ∀ {l : List α} {ys : List β}, l.mapM f = .ok ys →
      ys.length = l.length ∧ ∀ i (hi : i < l.length) (hy : i < ys.length),
        f (l.get ⟨i, hi⟩) = .ok (ys.get ⟨i, hy⟩) := by
  intro l
  induction l with
  | nil =>
    intro ys h
    rw [List.mapM_nil] at h
    simp only [pure, Except.pure, Except.ok.injEq] at h
    subst h
    simp
  | cons a xs ih =>
    intro ys h
    rw [List.mapM_cons] at h
    cases ha : f a with
    | error e => rw [ha] at h; simp [bind, Except.bind] at h
    | ok y =>
      rw [ha] at h
      cases hm : xs.mapM f with
      | error e => rw [hm] at h; simp [bind, Except.bind] at h
      | ok zs =>
        rw [hm] at h
        simp only [bind, Except.bind, pure, Except.pure, Except.ok.injEq] at h
        subst h
        obtain ⟨hlen, hpt⟩ := ih hm
        refine ⟨by simp [hlen], ?_⟩
        intro i hi hy
        cases i with
        | zero => simpa using ha
        | succ j => simpa using hpt j (by simpa using hi) (by simpa using hy)

/-- A successful `mapM` over `Except` succeeded on every member of its input. -/
theorem mapM_ok_mem {α β ε : Type} (f : α → Except ε β) :
    ∀ {l : List α} {ys : List β}, l.mapM f = .ok ys →
      ∀ x ∈ l, ∃ y, f x = .ok y := by
  intro l
  induction l with
  | nil => intro ys _ x hx; simp at hx
  | cons a xs ih =>
    intro ys h x hx
    rw [List.mapM_cons] at h
    cases ha : f a with
    | error e => rw [ha] at h; simp [bind, Except.bind] at h
    | ok y =>
      rw [ha] at h
      cases hm : xs.mapM f with
      | error e => rw [hm] at h; simp [bind, Except.bind] at h
      | ok zs =>
        rcases List.mem_cons.mp hx with hx | hx
        · exact ⟨y, hx ▸ ha⟩
        · exact ih hm x hx

/-- The sequence builder appends, in order, the encoded elements keyed by
their one-based position offset by the pairs already accumulated; it fails
exactly when some element fails to encode. -/
theorem seq_fold_eq (enc : NativeValue → SerResult AnyLuaValue) :
    ∀ (l : List NativeValue) (st : LuaSerializeSeq),
      l.foldlM (fun st v => st.serialize_element (enc v)) st =
      (do
        let ws ← l.mapM enc
        pure (⟨st.pairs ++ (List.enumFrom (st.pairs.length + 1) ws).map
          (fun iw => (.LuaNumber (intToF64 (iw.1 : Int)), iw.2))⟩ : LuaSerializeSeq)) := by
  intro l
  induction l with
  | nil =>
    intro st
    rw [List.foldlM_nil, List.mapM_nil]
    simp [pure, Except.pure, bind, Except.bind, List.enumFrom_nil]
  | cons a xs ih =>
    intro st
    rw [List.foldlM_cons, List.mapM_cons]
    cases ha : enc a with
    | error e =>
      simp [LuaSerializeSeq.serialize_element, ha, bind, Except.bind]
    | ok w =>
      have hel : st.serialize_element (Except.ok w) =
          .ok ⟨st.pairs ++ [(.LuaNumber (intToF64 ((st.pairs.length : Int) + 1)), w)]⟩ := by
        simp [LuaSerializeSeq.serialize_element, bind, Except.bind, pure, Except.pure]
      rw [hel, except_bind_ok, ih]
      cases hm : xs.mapM enc with
      | error e => simp only [hm, except_bind_ok, except_bind_error, except_pure_eq]
      | ok ws =>
        simp only [hm, except_bind_ok, except_bind_error, except_pure_eq, Except.ok.injEq]
        rw [List.enumFrom_cons, List.map_cons]
        simp only [List.length_append, List.length_cons, List.length_nil, Nat.zero_add]
        rw [List.append_assoc, List.singleton_append]
        congr 4

/-- The map builder appends, in order, the entry pairs whose key passed the
NaN/nil check; it fails exactly when some key fails to serialize, fails the
check, or some value fails to serialize. -/
theorem map_fold_eq {α : Type} (fk fv : α → SerResult AnyLuaValue) :
    ∀ (l : List α) (st : LuaSerializeMap),
      l.foldlM (fun st x => st.serialize_entry (fk x) (fv x)) st =
      (do
        let ps ← l.mapM (fun x => do
          let k ← fk x
          let _u ← keyCheck k
          let v ← fv x
          pure (k, v))
        pure (⟨st.pairs ++ ps⟩ : LuaSerializeMap)) := by
  intro l
  induction l with
  | nil =>
    intro st
    rw [List.foldlM_nil, List.mapM_nil]
    simp [pure, Except.pure, bind, Except.bind]
  | cons a xs ih =>
    intro st
    rw [List.foldlM_cons, List.mapM_cons]
    cases hk : fk a with
    | error e => simp [LuaSerializeMap.serialize_entry, hk, bind, Except.bind]
    | ok k =>
      cases hc : keyCheck k with
      | error e => simp [LuaSerializeMap.serialize_entry, hk, hc, bind, Except.bind]
      | ok u =>
        cases hv : fv a with
        | error e => simp [LuaSerializeMap.serialize_entry, hk, hc, hv, bind, Except.bind]
        | ok v =>
          have hent : st.serialize_entry (Except.ok k) (Except.ok v) =
              .ok ⟨st.pairs ++ [(k, v)]⟩ := by
            simp [LuaSerializeMap.serialize_entry, hc, bind, Except.bind,
              pure, Except.pure]
          rw [hent, except_bind_ok, ih]
          cases hm : xs.mapM (fun x => do
              let k ← fk x
              let _u ← keyCheck k
              let v ← fv x
              pure (k, v)) with
          | error e =>
            simp only [hm, hc, except_bind_ok, except_bind_error, except_pure_eq]
          | ok ps =>
            simp only [hm, hc, except_bind_ok, except_bind_error, except_pure_eq,
              Except.ok.injEq]
            simp


/-- An integer small enough to be exactly representable casts to the finite
double of the same value. -/
theorem intToF64_int_small {v : Int} (h : v.natAbs < 2 ^ 53) :
    intToF64 v = .fin (v : ℚ) := by
  unfold intToF64
  simp only [round53_small h]
  have hlt : ¬ (2 ^ 1024 ≤ v.natAbs) := by
    have h2 : (2 : Nat) ^ 53 ≤ 2 ^ 1024 := Nat.pow_le_pow_right (by norm_num) (by norm_num)
    omega
  rw [if_neg hlt]
  by_cases hneg : v < 0
  · rw [if_pos hneg]
    congr 1
    rw [Int.cast_natAbs]
    rw [abs_of_nonpos (by exact_mod_cast hneg.le)]
    push_cast
    ring
  · rw [if_neg hneg]
    congr 1
    rw [Int.cast_natAbs]
    rw [abs_of_nonneg (by exact_mod_cast not_lt.mp hneg)]

/-- A finite double holding an in-range integer casts back to that integer. -/
theorem f64toInt_fin_small {lo hi v : Int} (h1 : lo ≤ v) (h2 : v ≤ hi) :
    f64toInt lo hi (.fin (v : ℚ)) = v := by
  simp only [f64toInt, truncRat_intCast]
  rw [if_neg (by omega), if_neg (by omega)]

/-- In-range values of the narrow integer types survive the `as f64 as T`
round trip. -/
theorem castRoundTrip_small {lo hi v : Int} (h1 : lo ≤ v) (h2 : v ≤ hi)
    (habs : v.natAbs < 2 ^ 53) : f64toInt lo hi (intToF64 v) = v := by
  rw [intToF64_int_small habs, f64toInt_fin_small h1 h2]

/-- C4: encoding a fixed-width integer succeeds (as `Number(v as f64)`) iff
casting `v` to `f64` and back is value-preserving (the narrow types are always
in that case, and their encoding is unconditional); decoding a `Number` into a
fixed-width integer type succeeds iff the number survives the `as T as f64`
round trip; `i64::MIN` encodes, `i64::MIN + 1` is refused, `Number(1.5)`
decodes into no integer type, and `Number(1.0)` decodes into `u8` as `1`. -/
theorem integer_losslessness :
    (∀ v : Int, (serialize_i64 v).isOk = true ↔ f64toI64 (intToF64 v) = v) ∧
    (∀ v : Int, f64toI64 (intToF64 v) = v →
      serialize_i64 v = .ok (.LuaNumber (intToF64 v))) ∧
    (∀ v : Int, (serialize_u64 v).isOk = true ↔ f64toU64 (intToF64 v) = v) ∧
    (∀ v : Int, f64toU64 (intToF64 v) = v →
      serialize_u64 v = .ok (.LuaNumber (intToF64 v))) ∧
    (∀ v : Int, encode (.vI8 v) = .ok (.LuaNumber (intToF64 v)) ∧
      encode (.vI16 v) = .ok (.LuaNumber (intToF64 v)) ∧
      encode (.vI32 v) = .ok (.LuaNumber (intToF64 v)) ∧
      encode (.vU8 v) = .ok (.LuaNumber (intToF64 v)) ∧
      encode (.vU16 v) = .ok (.LuaNumber (intToF64 v)) ∧
      encode (.vU32 v) = .ok (.LuaNumber (intToF64 v))) ∧
    (∀ v : Int, -(2 ^ 7) ≤ v → v ≤ 2 ^ 7 - 1 → f64toI8 (intToF64 v) = v) ∧
    (∀ v : Int, -(2 ^ 15) ≤ v → v ≤ 2 ^ 15 - 1 → f64toI16 (intToF64 v) = v) ∧
    (∀ v : Int, -(2 ^ 31) ≤ v → v ≤ 2 ^ 31 - 1 → f64toI32 (intToF64 v) = v) ∧
    (∀ v : Int, 0 ≤ v → v ≤ 2 ^ 8 - 1 → f64toU8 (intToF64 v) = v) ∧
    (∀ v : Int, 0 ≤ v → v ≤ 2 ^ 16 - 1 → f64toU16 (intToF64 v) = v) ∧
    (∀ v : Int, 0 ≤ v → v ≤ 2 ^ 32 - 1 → f64toU32 (intToF64 v) = v) ∧
    (∀ x : F64,
      ((decode .tI8 (.LuaNumber x)).isOk = true ↔
        f64beq (intToF64 (f64toI8 x)) x = true) ∧
      ((decode .tI16 (.LuaNumber x)).isOk = true ↔
        f64beq (intToF64 (f64toI16 x)) x = true) ∧
      ((decode .tI32 (.LuaNumber x)).isOk = true ↔
        f64beq (intToF64 (f64toI32 x)) x = true) ∧
      ((decode .tI64 (.LuaNumber x)).isOk = true ↔
        f64beq (intToF64 (f64toI64 x)) x = true) ∧
      ((decode .tU8 (.LuaNumber x)).isOk = true ↔
        f64beq (intToF64 (f64toU8 x)) x = true) ∧
      ((decode .tU16 (.LuaNumber x)).isOk = true ↔
        f64beq (intToF64 (f64toU16 x)) x = true) ∧
      ((decode .tU32 (.LuaNumber x)).isOk = true ↔
        f64beq (intToF64 (f64toU32 x)) x = true) ∧
      ((decode .tU64 (.LuaNumber x)).isOk = true ↔
        f64beq (intToF64 (f64toU64 x)) x = true)) ∧
    serialize_i64 (-(2 ^ 63)) = .ok (.LuaNumber (.fin (-9223372036854775808))) ∧
    serialize_i64 (-(2 ^ 63) + 1) =
      .error (.custom "value cannot be losslessly represented as lua number (f64)") ∧
    (∀ t ∈ [Ty.tI8, .tI16, .tI32, .tI64, .tU8, .tU16, .tU32, .tU64],
      decode t (.LuaNumber (.fin (mkRat 3 2))) = .error (.invalidType "float")) ∧
    decode .tU8 (.LuaNumber (.fin 1)) = .ok (.vU8 1) := by
  refine ⟨?_, ?_, ?_, ?_, ?_, ?_, ?_, ?_, ?_, ?_, ?_, ?_, ?_, ?_, ?_, ?_⟩
  · intro v
    by_cases he : f64toI64 (intToF64 v) = v <;>
      simp [serialize_i64, he, Except.isOk, Except.toBool]
  · intro v he
    simp [serialize_i64, he]
  · intro v
    by_cases he : f64toU64 (intToF64 v) = v <;>
      simp [serialize_u64, he, Except.isOk, Except.toBool]
  · intro v he
    simp [serialize_u64, he]
  · intro v
    refine ⟨?_, ?_, ?_, ?_, ?_, ?_⟩ <;> rw [encode]
  · intro v h1 h2
    exact castRoundTrip_small h1 h2 (by omega)
  · intro v h1 h2
    exact castRoundTrip_small h1 h2 (by omega)
  · intro v h1 h2
    exact castRoundTrip_small h1 h2 (by omega)
  · intro v h1 h2
    exact castRoundTrip_small h1 h2 (by omega)
  · intro v h1 h2
    exact castRoundTrip_small h1 h2 (by omega)
  · intro v h1 h2
    exact castRoundTrip_small h1 h2 (by omega)
  · intro x
    refine ⟨?_, ?_, ?_, ?_, ?_, ?_, ?_, ?_⟩
    · by_cases hg : f64beq (intToF64 (f64toI8 x)) x = true <;>
        simp [decode, hg, Except.isOk, Except.toBool]
    · by_cases hg : f64beq (intToF64 (f64toI16 x)) x = true <;>
        simp [decode, hg, Except.isOk, Except.toBool]
    · by_cases hg : f64beq (intToF64 (f64toI32 x)) x = true <;>
        simp [decode, hg, Except.isOk, Except.toBool]
    · by_cases hg : f64beq (intToF64 (f64toI64 x)) x = true <;>
        simp [decode, hg, Except.isOk, Except.toBool]
    · by_cases hg : f64beq (intToF64 (f64toU8 x)) x = true <;>
        simp [decode, hg, Except.isOk, Except.toBool]
    · by_cases hg : f64beq (intToF64 (f64toU16 x)) x = true <;>
        simp [decode, hg, Except.isOk, Except.toBool]
    · by_cases hg : f64beq (intToF64 (f64toU32 x)) x = true <;>
        simp [decode, hg, Except.isOk, Except.toBool]
    · by_cases hg : f64beq (intToF64 (f64toU64 x)) x = true <;>
        simp [decode, hg, Except.isOk, Except.toBool]
  · rfl
  · rfl
  · have g1 : f64beq (intToF64 (f64toI8 (.fin (mkRat 3 2)))) (.fin (mkRat 3 2)) = false := by
      decide
    have g2 : f64beq (intToF64 (f64toI16 (.fin (mkRat 3 2)))) (.fin (mkRat 3 2)) = false := by
      decide
    have g3 : f64beq (intToF64 (f64toI32 (.fin (mkRat 3 2)))) (.fin (mkRat 3 2)) = false := by
      decide
    have g4 : f64beq (intToF64 (f64toI64 (.fin (mkRat 3 2)))) (.fin (mkRat 3 2)) = false := by
      decide
    have g5 : f64beq (intToF64 (f64toU8 (.fin (mkRat 3 2)))) (.fin (mkRat 3 2)) = false := by
      decide
    have g6 : f64beq (intToF64 (f64toU16 (.fin (mkRat 3 2)))) (.fin (mkRat 3 2)) = false := by
      decide
    have g7 : f64beq (intToF64 (f64toU32 (.fin (mkRat 3 2)))) (.fin (mkRat 3 2)) = false := by
      decide
    have g8 : f64beq (intToF64 (f64toU64 (.fin (mkRat 3 2)))) (.fin (mkRat 3 2)) = false := by
      decide
    intro t ht
    fin_cases ht <;>
      simp [decode, deError, unexpectedOf, g1, g2, g3, g4, g5, g6, g7, g8]
  · have gv : f64toU8 (.fin 1) = 1 := by decide
    have g : f64beq (intToF64 (1 : Int)) (.fin 1) = true := by decide
    simp [decode, gv, g]

/-- Witness instantiating C4's quantified conjuncts at concrete inputs. -/
theorem integer_losslessness_witness :
    (-(2 ^ 7) ≤ (5 : Int) ∧ (5 : Int) ≤ 2 ^ 7 - 1 ∧ f64toI8 (intToF64 5) = 5) ∧
    ((serialize_i64 7).isOk = true ↔ f64toI64 (intToF64 7) = 7) :=
  ⟨⟨by decide, by decide,
    integer_losslessness.2.2.2.2.2.1 5 (by decide) (by decide)⟩,
   integer_losslessness.1 7⟩


/-- Shape of a successful sequence-builder run started from the empty builder:
every element encoded, and the result is the table of encoded elements keyed
by their one-based position. -/
theorem seq_encode_ok_shape {vs : List NativeValue} {l : AnyLuaValue}
    (h : (do
      let st ← vs.foldlM (fun (st : LuaSerializeSeq) v => st.serialize_element (encode v))
        (⟨[]⟩ : LuaSerializeSeq)
      seq_end st) = .ok l) :
    ∃ ws, vs.mapM encode = .ok ws ∧
      l = .LuaArray ((List.enumFrom 1 ws).map
        (fun iw => (.LuaNumber (intToF64 (iw.1 : Int)), iw.2))) := by
  rw [seq_fold_eq] at h
  cases hm : vs.mapM encode with
  | error e =>
    rw [hm] at h
    simp [except_bind_error] at h
  | ok ws =>
    rw [hm] at h
    refine ⟨ws, rfl, ?_⟩
    simp only [except_bind_ok, except_pure_eq, seq_end, Except.ok.injEq] at h
    simp only [List.nil_append, List.length_nil, Nat.zero_add] at h
    exact h.symm

/-- C5: a successfully encoded sequence, tuple, or tuple struct is a table
whose i-th pair is `(Number(i+1), element i)` in insertion order, and such a
table passes the decoder's array-shape test, `is_vec` returning it on the
success branch. -/
theorem encoder_seq_passes_is_vec
    (vs : List NativeValue) (l : AnyLuaValue)
    (hlen : vs.length ≤ 2 ^ 63)
    (h : encode (.vSeq vs) = .ok l ∨ encode (.vTuple vs) = .ok l ∨
      ∃ nm, encode (.vTupleStruct nm vs) = .ok l) :
    ∃ ps ws, l = .LuaArray ps ∧ vs.mapM encode = .ok ws ∧
      ps.length = vs.length ∧
      (∀ i (hi : i < ps.length) (hw : i < ws.length),
        ps.get ⟨i, hi⟩ =
          (.LuaNumber (intToF64 ((i + 1 : Nat) : Int)), ws.get ⟨i, hw⟩)) ∧
      is_vec ps = .ok ps := by
  have hsh : ∃ ws, vs.mapM encode = .ok ws ∧
      l = .LuaArray ((List.enumFrom 1 ws).map
        (fun iw => (.LuaNumber (intToF64 (iw.1 : Int)), iw.2))) := by
    rcases h with h | h | ⟨nm, h⟩
    · rw [encode_vSeq] at h
      exact seq_encode_ok_shape h
    · rw [encode_vTuple] at h
      exact seq_encode_ok_shape h
    · rw [encode_vTupleStruct] at h
      exact seq_encode_ok_shape h
  obtain ⟨ws, hm, hl⟩ := hsh
  obtain ⟨hwlen, _⟩ := mapM_ok_spec encode hm
  refine ⟨(List.enumFrom 1 ws).map
      (fun iw => (.LuaNumber (intToF64 (iw.1 : Int)), iw.2)), ws, hl, hm, ?_, ?_, ?_⟩
  · simp [List.length_map, List.enumFrom_length, hwlen]
  · intro i hi hw
    simp [List.get_eq_getElem, List.getElem_map, List.getElem_enumFrom, Nat.add_comm]
  · apply is_vec_ok_of_positional
    · simp only [List.length_map, List.enumFrom_length]
      omega
    · intro i hi
      simp [List.get_eq_getElem, List.getElem_map, List.getElem_enumFrom, Nat.add_comm]

/-- Witness instantiating C5 on the two-element sequence `[true, ()]`. -/
theorem encoder_seq_passes_is_vec_witness :
    [NativeValue.vBool true, NativeValue.vUnit].length ≤ 2 ^ 63 ∧
    encode (.vSeq [NativeValue.vBool true, NativeValue.vUnit]) =
      .ok (.LuaArray [(.LuaNumber (intToF64 1), .LuaBoolean true),
        (.LuaNumber (intToF64 2), .LuaNil)]) ∧
    ∃ ps ws,
      (.LuaArray [(.LuaNumber (intToF64 1), .LuaBoolean true),
        (.LuaNumber (intToF64 2), .LuaNil)] : AnyLuaValue) = .LuaArray ps ∧
      [NativeValue.vBool true, NativeValue.vUnit].mapM encode = .ok ws ∧
      ps.length = [NativeValue.vBool true, NativeValue.vUnit].length ∧
      (∀ i (hi : i < ps.length) (hw : i < ws.length),
        ps.get ⟨i, hi⟩ =
          (.LuaNumber (intToF64 ((i + 1 : Nat) : Int)), ws.get ⟨i, hw⟩)) ∧
      is_vec ps = .ok ps := by
  have henc : encode (.vSeq [NativeValue.vBool true, NativeValue.vUnit]) =
      .ok (.LuaArray [(.LuaNumber (intToF64 1), .LuaBoolean true),
        (.LuaNumber (intToF64 2), .LuaNil)]) := by
    have e1 : encode (.vBool true) = .ok (.LuaBoolean true) := by rw [encode]
    have e2 : encode .vUnit = .ok .LuaNil := by rw [encode]
    rw [encode_vSeq, seq_fold_eq]
    simp [List.mapM_cons, List.mapM_nil, List.mapM, List.mapM.loop, e1, e2, bind,
      Except.bind, pure, Except.pure, List.enumFrom_cons, List.enumFrom_nil, seq_end]
  refine ⟨by norm_num, henc, ?_⟩
  exact encoder_seq_passes_is_vec [NativeValue.vBool true, NativeValue.vUnit]
    (.LuaArray [(.LuaNumber (intToF64 1), .LuaBoolean true),
      (.LuaNumber (intToF64 2), .LuaNil)])
    (by norm_num) (Or.inl henc)


/-- C6: a map key that serializes to nil or to a NaN number is rejected with
the corresponding unserializable-key error at the moment the key is produced
— before and regardless of the value result — and the whole encode returns
only that error, never a partial table: accordingly every key of every entry
of a successfully encoded map passed the check. -/
theorem map_nan_nil_keys_rejected :
    (∀ (st : LuaSerializeMap) (vres : SerResult AnyLuaValue),
      st.serialize_entry (.ok .LuaNil) vres =
        .error (.custom "unserializable key nil") ∧
      st.serialize_key (.ok .LuaNil) =
        .error (.custom "unserializable key nil")) ∧
    (∀ (st : LuaSerializeMap) (x : F64) (vres : SerResult AnyLuaValue),
      f64beq x x = false →
      st.serialize_entry (.ok (.LuaNumber x)) vres =
        .error (.custom "unserializable key NaN") ∧
      st.serialize_key (.ok (.LuaNumber x)) =
        .error (.custom "unserializable key NaN")) ∧
    (∀ (entries : List (NativeValue × NativeValue)) (l : AnyLuaValue),
      encode (.vMap entries) = .ok l →
      ∀ kv ∈ entries, ∀ ke, encode kv.1 = .ok ke → keyCheck ke = .ok ()) := by
  refine ⟨?_, ?_, ?_⟩
  · intro st vres
    constructor
    · simp [LuaSerializeMap.serialize_entry, keyCheck, bind, Except.bind]
    · simp [LuaSerializeMap.serialize_key, keyCheck, bind, Except.bind]
  · intro st x vres hx
    constructor
    · simp [LuaSerializeMap.serialize_entry, keyCheck, hx, bind, Except.bind]
    · simp [LuaSerializeMap.serialize_key, keyCheck, hx, bind, Except.bind]
  · intro entries l h kv hmem ke hke
    rw [encode_vMap, map_fold_eq] at h
    cases hm : entries.mapM (fun kv => do
        let k ← encode kv.1
        let _u ← keyCheck k
        let v ← encode kv.2
        pure (k, v)) with
    | error e =>
      rw [hm] at h
      simp [except_bind_error] at h
    | ok ps =>
      obtain ⟨p, hp⟩ := mapM_ok_mem _ hm kv hmem
      rw [hke, except_bind_ok] at hp
      cases hc : keyCheck ke with
      | error e =>
        rw [hc, except_bind_error] at hp
        simp at hp
      | ok u =>
        cases u
        rfl

/-- Witness instantiating C6 at nil and NaN keys and at a one-entry map. -/
theorem map_nan_nil_keys_rejected_witness :
    ((⟨[]⟩ : LuaSerializeMap).serialize_entry (.ok .LuaNil) (.ok (.LuaBoolean true)) =
      .error (.custom "unserializable key nil")) ∧
    (f64beq .nan .nan = false ∧
      (⟨[]⟩ : LuaSerializeMap).serialize_key (.ok (.LuaNumber .nan)) =
        .error (.custom "unserializable key NaN")) ∧
    (encode (.vMap [(.vStr "a", .vBool true)]) =
        .ok (.LuaArray [(.LuaString "a", .LuaBoolean true)]) ∧
      keyCheck (.LuaString "a") = .ok ()) := by
  have henc : encode (.vMap [(.vStr "a", .vBool true)]) =
      .ok (.LuaArray [(.LuaString "a", .LuaBoolean true)]) := by
    have e1 : encode (.vStr "a") = .ok (.LuaString "a") := by rw [encode]
    have e2 : encode (.vBool true) = .ok (.LuaBoolean true) := by rw [encode]
    rw [encode_vMap, map_fold_eq]
    simp [List.mapM, List.mapM.loop, e1, e2, keyCheck, bind, Except.bind, pure,
      Except.pure, map_end]
  refine ⟨(map_nan_nil_keys_rejected.1 ⟨[]⟩ (.ok (.LuaBoolean true))).1,
    ⟨rfl, (map_nan_nil_keys_rejected.2.1 ⟨[]⟩ .nan (.ok (.LuaBoolean true)) rfl).2⟩,
    henc, map_nan_nil_keys_rejected.2.2 [(.vStr "a", .vBool true)]
      (.LuaArray [(.LuaString "a", .LuaBoolean true)]) henc
      (.vStr "a", .vBool true) (by simp) (.LuaString "a") (by rw [encode])⟩


/-- C9: under the protocol's calling discipline — the value accessor runs
only immediately after a key accessor that returned a key, with no skipping
and no key-without-value — the pending slot is always occupied when the value
accessor runs, so the `unwrap` in `next_value_seed` never panics (`runOps`
never returns the panic marker `none`); and on the encoder side a successful
`serialize_key` leaves the pair list non-empty, so the `self.0[len - 1]`
index in `serialize_value` cannot panic (its panic marker `.ok none` is never
returned). -/
theorem map_access_discipline_safe :
    (∀ (ops : List MapOp) (s : LuaMapAccess), MapCallsOk s ops →
      (runOps ops s).isSome = true) ∧
    (∀ (st st' : LuaSerializeMap) (kres : SerResult AnyLuaValue),
      st.serialize_key kres = .ok st' →
      ∀ vres, st'.serialize_value vres ≠ .ok none) := by
  constructor
  · intro ops s h
    induction h with
    | nil s => simp [runOps]
    | keyNone s ops hrest hsub ih =>
      simpa [runOps] using ih
    | keySome s ops k v t hrest hsub ih =>
      have hkey : s.nextKeyRaw = (some k, ⟨t, some v⟩) := by
        simp [LuaMapAccess.nextKeyRaw, hrest]
      simp only [runOps, hkey]
      have hval : (⟨t, some v⟩ : LuaMapAccess).nextValueRaw =
          some (v, ⟨t, none⟩) := by
        simp [LuaMapAccess.nextValueRaw]
      simpa [runOps, hval] using ih
  · intro st st' kres h vres
    cases kres with
    | error e => simp [LuaSerializeMap.serialize_key, bind, Except.bind] at h
    | ok k =>
      cases hc : keyCheck k with
      | error e =>
        rw [LuaSerializeMap.serialize_key] at h
        rw [except_bind_ok, hc, except_bind_error] at h
        simp at h
      | ok u =>
        rw [LuaSerializeMap.serialize_key] at h
        rw [except_bind_ok, hc, except_bind_ok] at h
        simp only [except_pure_eq, Except.ok.injEq] at h
        subst h
        cases vres with
        | error e => simp [LuaSerializeMap.serialize_value, bind, Except.bind]
        | ok v =>
          simp [LuaSerializeMap.serialize_value, bind, Except.bind, pure, Except.pure]

/-- Witness instantiating C9 on a one-entry access and a one-key builder. -/
theorem map_access_discipline_safe_witness :
    (runOps [.key, .val] ⟨[(.LuaString "k", .LuaBoolean true)], none⟩).isSome = true ∧
    (⟨[]⟩ : LuaSerializeMap).serialize_key (.ok (.LuaString "k")) =
      .ok ⟨[(.LuaString "k", .LuaNil)]⟩ ∧
    (⟨[(.LuaString "k", .LuaNil)]⟩ : LuaSerializeMap).serialize_value (.ok .LuaNil) ≠
      .ok none :=
  ⟨map_access_discipline_safe.1 [.key, .val]
      ⟨[(.LuaString "k", .LuaBoolean true)], none⟩
      (MapCallsOk.keySome _ [] _ _ _ rfl (MapCallsOk.nil _)),
    by rfl,
    map_access_discipline_safe.2 ⟨[]⟩ ⟨[(.LuaString "k", .LuaNil)]⟩
      (.ok (.LuaString "k")) (by rfl) (.ok .LuaNil)⟩


/-- The canonical key-then-value drain of a map access is exactly the
in-order traversal of the table's pairs. -/
theorem drainMap_eq (dk dv : AnyLuaValue → DeResult NativeValue) :
    ∀ ps : List (AnyLuaValue × AnyLuaValue),
      drainMap dk dv ⟨ps, none⟩ =
      ps.mapM (fun kv => do
        let kd ← dk kv.1
        let vd ← dv kv.2
        pure (kd, vd)) := by
  intro ps
  induction ps with
  | nil =>
    rw [drainMap, List.mapM_nil]
    rfl
  | cons kv t ih =>
    obtain ⟨k, v⟩ := kv
    rw [drainMap, List.mapM_cons]
    simp only [LuaMapAccess.nextKeyRaw]
    cases hk : dk k with
    | error e => simp only [hk, except_bind_error]
    | ok kd =>
      simp only [hk, except_bind_ok]
      simp only [LuaMapAccess.nextValueRaw]
      cases hv : dv v with
      | error e => simp only [hv, except_bind_error]
      | ok vd =>
        simp only [hv, except_bind_ok, ih]
        cases hm : t.mapM (fun kv => do
            let kd ← dk kv.1
            let vd ← dv kv.2
            pure (kd, vd)) with
        | error e => simp only [hm, except_pure_eq, except_bind_error, except_bind_ok]
        | ok rest => simp only [hm, except_bind_ok, except_pure_eq]

/-- C8: map and struct decoding accept any table with no array-shape test and
walk the pairs in the table's original order: a map decode is the in-order
key/value traversal of the pairs, a struct decode is the in-order traversal
requiring string keys, and an array-shaped table (which `is_vec` accepts)
still decodes as a map keyed by its integer positions. -/
theorem map_decode_original_order :
    (∀ (kt vt : Ty) (ps : List (AnyLuaValue × AnyLuaValue)),
      decode (.tMap kt vt) (.LuaArray ps) =
        (do
          let kvs ← ps.mapM (fun kv => do
            let kd ← decode kt kv.1
            let vd ← decode vt kv.2
            pure (kd, vd))
          pure (.vMap kvs))) ∧
    (∀ (name : String) (fields : List (String × Ty))
        (ps : List (AnyLuaValue × AnyLuaValue)),
      decode (.tStruct name fields) (.LuaArray ps) =
        (do
          let kvs ← ps.mapM (fun p =>
            match p.1 with
            | .LuaString s => .ok (s, p.2)
            | k => .error (deError k))
          let fs ← decodeFields fields kvs
          pure (.vStruct name fs))) ∧
    (is_vec [(.LuaNumber (intToF64 1), .LuaBoolean true),
        (.LuaNumber (intToF64 2), .LuaBoolean false)] =
      .ok [(.LuaNumber (intToF64 1), .LuaBoolean true),
        (.LuaNumber (intToF64 2), .LuaBoolean false)] ∧
      decode (.tMap .tU8 .tBool)
        (.LuaArray [(.LuaNumber (intToF64 1), .LuaBoolean true),
          (.LuaNumber (intToF64 2), .LuaBoolean false)]) =
        .ok (.vMap [(.vU8 1, .vBool true), (.vU8 2, .vBool false)])) := by
  have hmap : ∀ (kt vt : Ty) (ps : List (AnyLuaValue × AnyLuaValue)),
      decode (.tMap kt vt) (.LuaArray ps) =
        (do
          let kvs ← ps.mapM (fun kv => do
            let kd ← decode kt kv.1
            let vd ← decode vt kv.2
            pure (kd, vd))
          pure (.vMap kvs)) := by
    intro kt vt ps
    simp only [decode]
    rw [drainMap_eq]
  refine ⟨hmap, ?_, ?_, ?_⟩
  · intro name fields ps
    simp only [decode, decodeStructInner]
    cases hm : ps.mapM (fun p =>
        match p.1 with
        | .LuaString s => (.ok (s, p.2) : DeResult (String × AnyLuaValue))
        | k => .error (deError k)) with
    | error e => simp [bind, Except.bind]
    | ok kvs =>
      simp only [except_bind_ok, bind, Except.bind]
  · rfl
  · have g1 : f64beq (intToF64 (f64toU8 (intToF64 1))) (intToF64 1) = true := by decide
    have gv1 : f64toU8 (intToF64 1) = 1 := by decide
    have g2 : f64beq (intToF64 (f64toU8 (intToF64 2))) (intToF64 2) = true := by decide
    have gv2 : f64toU8 (intToF64 2) = 1 + 1 := by decide
    have gg1 : f64beq (intToF64 (1 : Int)) (intToF64 (1 : Int)) = true := by decide
    have gg2 : f64beq (intToF64 (2 : Int)) (intToF64 (2 : Int)) = true := by decide
    have d1 : decode .tU8 (.LuaNumber (intToF64 1)) = .ok (.vU8 1) := by
      simp [decode, g1, gv1, gg1]
    have d2 : decode .tU8 (.LuaNumber (intToF64 2)) = .ok (.vU8 2) := by
      simp [decode, g2, gv2, gg2]
    have db1 : decode .tBool (.LuaBoolean true) = .ok (.vBool true) := by
      simp [decode]
    have db2 : decode .tBool (.LuaBoolean false) = .ok (.vBool false) := by
      simp [decode]
    rw [hmap]
    simp [List.mapM, List.mapM.loop, d1, d2, db1, db2, bind, Except.bind, pure,
      Except.pure]


/-- A tag lookup that finds a unit-shaped variant makes `decodeVariant`
require a nil payload: nil yields the unit variant, anything else the
invalid-type error. -/
theorem decodeVariant_unit_lookup (name ident : String) :
    ∀ (variants : List (String × VariantShape)) (cs : String × VariantShape),
      variants.find? (fun cs => cs.1 == ident) = some cs →
      cs.2 = .unitShape →
      ∀ payload : AnyLuaValue, decodeVariant name variants ident payload =
        match payload with
        | .LuaNil => .ok (.vUnitVariant name ident)
        | _ => .error (deError payload) := by
  intro variants
  induction variants with
  | nil =>
    intro cs hfind _ _
    simp at hfind
  | cons hd rest ih =>
    intro cs hfind hshape payload
    obtain ⟨cn, cshape⟩ := hd
    cases hcn : cn == ident with
    | true =>
      rw [List.find?_cons_of_pos _ (by simpa using hcn)] at hfind
      have hcs : cs = (cn, cshape) := by
        injection hfind with h
        exact h.symm
      subst hcs
      simp only [] at hshape
      subst hshape
      rw [decodeVariant.eq_def]
      simp only []
      rw [if_pos hcn]
    | false =>
      rw [List.find?_cons_of_neg _ (by simpa using hcn)] at hfind
      rw [decodeVariant.eq_def]
      simp only []
      rw [if_neg (by simp [hcn])]
      exact ih cs hfind hshape payload

/-- C7: enum decoding maps a string input to the named variant looked up by
the consumer, with a `Nil` payload (hence a unit variant, when the shape is
unit); a one-entry table whose key is a string dispatches to the variant
named by that key with the entry's value as payload; a table with zero or
several entries is an invalid-length error carrying the entry count; and a
unit variant's payload must be `Nil`, anything else being rejected. -/
theorem enum_decode_shapes :
    (∀ (name : String) (variants : List (String × VariantShape)) (ident : String),
      decode (.tEnum name variants) (.LuaString ident) =
        decodeVariant name variants ident .LuaNil) ∧
    (∀ (name : String) (variants : List (String × VariantShape))
        (kp : AnyLuaValue × AnyLuaValue) (ident : String),
      kp.1 = .LuaString ident →
      decode (.tEnum name variants) (.LuaArray [kp]) =
        decodeVariant name variants ident kp.2) ∧
    (∀ (name : String) (variants : List (String × VariantShape))
        (ps : List (AnyLuaValue × AnyLuaValue)),
      ps.length ≠ 1 →
      decode (.tEnum name variants) (.LuaArray ps) =
        .error (.invalidLength ps.length)) ∧
    (∀ (name : String) (variants : List (String × VariantShape)) (ident : String)
        (cs : String × VariantShape) (payload : AnyLuaValue),
      variants.find? (fun cs => cs.1 == ident) = some cs →
      cs.2 = .unitShape →
      (payload = .LuaNil →
        decodeVariant name variants ident payload = .ok (.vUnitVariant name ident)) ∧
      (payload ≠ .LuaNil →
        decodeVariant name variants ident payload = .error (deError payload))) := by
  refine ⟨?_, ?_, ?_, ?_⟩
  · intro name variants ident
    simp only [decode]
  · intro name variants kp ident hk
    obtain ⟨k, w⟩ := kp
    simp only [] at hk
    subst hk
    simp only [decode]
  · intro name variants ps hlen
    match ps with
    | [] => simp [decode]
    | [kp] => exact absurd rfl hlen
    | kp :: kq :: t => simp [decode]
  · intro name variants ident cs payload hfind hshape
    have hunfold := decodeVariant_unit_lookup name ident variants cs hfind hshape payload
    constructor
    · intro hpay
      subst hpay
      rw [hunfold]
    · intro hpay
      rw [hunfold]
      cases payload with
      | LuaNil => exact absurd rfl hpay
      | LuaString a => rfl
      | LuaAnyString a => rfl
      | LuaNumber a => rfl
      | LuaBoolean a => rfl
      | LuaArray a => rfl
      | LuaOther => rfl

/-- Witness instantiating C7 on a two-variant enum. -/
theorem enum_decode_shapes_witness :
    (((AnyLuaValue.LuaString "B", AnyLuaValue.LuaBoolean true) :
        AnyLuaValue × AnyLuaValue).1 = AnyLuaValue.LuaString "B" ∧
      decode (.tEnum "E" [("A", .unitShape), ("B", .newtypeShape .tBool)])
          (.LuaArray [(.LuaString "B", .LuaBoolean true)]) =
        decodeVariant "E" [("A", .unitShape), ("B", .newtypeShape .tBool)] "B"
          (.LuaBoolean true)) ∧
    (([("A", VariantShape.unitShape), ("B", .newtypeShape .tBool)].find?
        (fun cs => cs.1 == "A")) = some ("A", .unitShape) ∧
      decodeVariant "E" [("A", .unitShape), ("B", .newtypeShape .tBool)] "A" .LuaNil =
        .ok (.vUnitVariant "E" "A") ∧
      decodeVariant "E" [("A", .unitShape), ("B", .newtypeShape .tBool)] "A"
          (.LuaBoolean true) = .error (deError (.LuaBoolean true))) := by
  have hfind : ([("A", VariantShape.unitShape), ("B", .newtypeShape .tBool)].find?
      (fun cs => cs.1 == "A")) = some ("A", .unitShape) := by rfl
  have hparts := enum_decode_shapes.2.2.2 "E"
    [("A", .unitShape), ("B", .newtypeShape .tBool)] "A" ("A", .unitShape)
  refine ⟨⟨rfl, enum_decode_shapes.2.1 "E"
      [("A", .unitShape), ("B", .newtypeShape .tBool)]
      (.LuaString "B", .LuaBoolean true) "B" rfl⟩,
    hfind, (hparts AnyLuaValue.LuaNil hfind rfl).1 rfl,
    (hparts (AnyLuaValue.LuaBoolean true) hfind rfl).2 (by simp)⟩


/-- Some(None) is well typed at Option (Option Bool), has no unit field and
no bytes, encodes to Nil, and decodes back to None: the round trip changes
the value. -/
theorem round_trip_some_none_counterexample :
    hasTy (.vSome .vNone) (.tOption (.tOption .tBool)) = true ∧
    noBytes (.vSome .vNone) = true ∧
    noUnitField (.vSome .vNone) = true ∧
    encode (.vSome .vNone) = .ok .LuaNil ∧
    decode (.tOption (.tOption .tBool)) .LuaNil = .ok .vNone ∧
    (Except.ok NativeValue.vNone : DeResult NativeValue) ≠ .ok (.vSome .vNone) := by
  refine ⟨?_, ?_, ?_, ?_, by simp [decode], by simp⟩
  · rw [hasTy.eq_def]
    simp only []
    rw [hasTy.eq_def]
  · simp only [noBytes]
    rw [allValues.eq_def]
    simp only []
    rw [allValues.eq_def]
    simp
  · simp only [noUnitField]
    rw [allValues.eq_def]
    simp only []
    rw [allValues.eq_def]
    simp
  · rw [encode, encode]

/-- IEEE equality is reflexive away from NaN. -/
theorem f64beq_self_of_ne_nan {x : F64} (h : x ≠ .nan) : f64beq x x = true := by
  cases x with
  | nan => exact absurd rfl h
  | inf b => exact f64beq_inf_self b
  | fin q => exact f64beq_fin_self q

/-- Converse of `mapM_ok_spec`: pointwise success at the right outputs makes
the whole `mapM` succeed with those outputs. -/
theorem mapM_eq_ok_of_get {α β ε : Type} (f : α → Except ε β) :
    ∀ {l : List α} {ys : List β}, ys.length = l.length →
      (∀ i (hi : i < l.length) (hy : i < ys.length),
        f (l.get ⟨i, hi⟩) = .ok (ys.get ⟨i, hy⟩)) →
      l.mapM f = .ok ys := by
  intro l
  induction l with
  | nil =>
    intro ys hlen _
    cases ys with
    | nil => rfl
    | cons y ys => simp at hlen
  | cons a xs ih =>
    intro ys hlen hpt
    cases ys with
    | nil => simp at hlen
    | cons y ys0 =>
      rw [List.mapM_cons]
      have h0 := hpt 0 (by simp) (by simp)
      simp only [List.get] at h0
      rw [h0, except_bind_ok]
      rw [ih (by simpa using hlen)
        (fun i hi hy => by simpa using hpt (i + 1) (by simpa using hi) (by simpa using hy))]
      rw [except_bind_ok, except_pure_eq]

/-- A node predicate holding on a list of values holds on each member. -/
theorem allValuesList_mem {p : NativeValue → Bool} :
    ∀ {vs : List NativeValue}, allValuesList p vs = true →
      ∀ w ∈ vs, allValues p w = true := by
  intro vs
  induction vs with
  | nil => intro _ w hw; simp at hw
  | cons a xs ih =>
    intro h w hw
    rw [allValuesList.eq_def] at h
    simp only [Bool.and_eq_true] at h
    rcases List.mem_cons.mp hw with hw | hw
    · exact hw ▸ h.1
    · exact ih h.2 w hw

/-- A node predicate holding on map entries holds on each key and value. -/
theorem allValuesPairs_mem {p : NativeValue → Bool} :
    ∀ {es : List (NativeValue × NativeValue)}, allValuesPairs p es = true →
      ∀ kv ∈ es, allValues p kv.1 = true ∧ allValues p kv.2 = true := by
  intro es
  induction es with
  | nil => intro _ kv hkv; simp at hkv
  | cons a xs ih =>
    intro h kv hkv
    obtain ⟨k, w⟩ := a
    rw [allValuesPairs.eq_def] at h
    simp only [Bool.and_eq_true] at h
    rcases List.mem_cons.mp hkv with hw | hw
    · subst hw
      exact ⟨h.1.1, h.1.2⟩
    · exact ih h.2 kv hw

/-- A node predicate holding on struct fields holds on each field value. -/
theorem allValuesFields_mem {p : NativeValue → Bool} :
    ∀ {fs : List (String × NativeValue)}, allValuesFields p fs = true →
      ∀ f ∈ fs, allValues p f.2 = true := by
  intro fs
  induction fs with
  | nil => intro _ f hf; simp at hf
  | cons a xs ih =>
    intro h f hf
    obtain ⟨fn, w⟩ := a
    rw [allValuesFields.eq_def] at h
    simp only [Bool.and_eq_true] at h
    rcases List.mem_cons.mp hf with hw | hw
    · subst hw
      exact h.1
    · exact ih h.2 f hw

/-- Sequence typing holds on each element. -/
theorem hasTySeq_mem {t : Ty} :
    ∀ {vs : List NativeValue}, hasTySeq vs t = true →
      ∀ w ∈ vs, hasTy w t = true := by
  intro vs
  induction vs with
  | nil => intro _ w hw; simp at hw
  | cons a xs ih =>
    intro h w hw
    rw [hasTySeq.eq_def] at h
    simp only [Bool.and_eq_true] at h
    rcases List.mem_cons.mp hw with hw | hw
    · exact hw ▸ h.1
    · exact ih h.2 w hw

/-- Tuple typing: the lengths agree and each component is typed at the
corresponding shape. -/
theorem hasTyTup_spec :
    ∀ {vs : List NativeValue} {ts : List Ty}, hasTyTup vs ts = true →
      vs.length = ts.length ∧
      ∀ i (h1 : i < vs.length) (h2 : i < ts.length),
        hasTy (vs.get ⟨i, h1⟩) (ts.get ⟨i, h2⟩) = true := by
  intro vs
  induction vs with
  | nil =>
    intro ts h
    cases ts with
    | nil => exact ⟨rfl, fun i h1 _ => by simp at h1⟩
    | cons t ts0 => rw [hasTyTup.eq_def] at h; simp at h
  | cons a xs ih =>
    intro ts h
    cases ts with
    | nil => rw [hasTyTup.eq_def] at h; simp at h
    | cons t ts0 =>
      rw [hasTyTup.eq_def] at h
      simp only [Bool.and_eq_true] at h
      obtain ⟨hlen, hpt⟩ := ih h.2
      refine ⟨by simp [hlen], ?_⟩
      intro i h1 h2
      cases i with
      | zero => exact h.1
      | succ j => exact hpt j (by simpa using h1) (by simpa using h2)

/-- Struct-field typing: the lengths agree, the names match pointwise, and
each field value is typed at the declared shape. -/
theorem hasTyFields_spec :
    ∀ {fs : List (String × NativeValue)} {flds : List (String × Ty)},
      hasTyFields fs flds = true →
      fs.length = flds.length ∧
      ∀ i (h1 : i < fs.length) (h2 : i < flds.length),
        (fs.get ⟨i, h1⟩).1 = (flds.get ⟨i, h2⟩).1 ∧
        hasTy (fs.get ⟨i, h1⟩).2 (flds.get ⟨i, h2⟩).2 = true := by
  intro fs
  induction fs with
  | nil =>
    intro flds h
    cases flds with
    | nil => exact ⟨rfl, fun i h1 _ => by simp at h1⟩
    | cons g gs => rw [hasTyFields.eq_def] at h; simp at h
  | cons a xs ih =>
    intro flds h
    obtain ⟨fn, w⟩ := a
    cases flds with
    | nil => rw [hasTyFields.eq_def] at h; simp at h
    | cons g gs =>
      obtain ⟨gn, t⟩ := g
      rw [hasTyFields.eq_def] at h
      simp only [Bool.and_eq_true] at h
      obtain ⟨⟨hname, hty⟩, hrest⟩ := h
      obtain ⟨hlen, hpt⟩ := ih hrest
      refine ⟨by simp [hlen], ?_⟩
      intro i h1 h2
      cases i with
      | zero => exact ⟨eq_of_beq hname, hty⟩
      | succ j => exact hpt j (by simpa using h1) (by simpa using h2)

/-- Map-entry typing holds on each entry. -/
theorem hasTyEntries_mem {kt vt : Ty} :
    ∀ {es : List (NativeValue × NativeValue)}, hasTyEntries es kt vt = true →
      ∀ kv ∈ es, hasTy kv.1 kt = true ∧ hasTy kv.2 vt = true := by
  intro es
  induction es with
  | nil => intro _ kv hkv; simp at hkv
  | cons a xs ih =>
    intro h kv hkv
    obtain ⟨k, w⟩ := a
    rw [hasTyEntries.eq_def] at h
    simp only [Bool.and_eq_true] at h
    rcases List.mem_cons.mp hkv with hw | hw
    · subst hw
      exact ⟨h.1.1, h.1.2⟩
    · exact ih h.2 kv hw


/-- A found tag makes `decodeVariant` dispatch on the found variant's shape. -/
theorem decodeVariant_lookup (name ident : String) :
    ∀ (variants : List (String × VariantShape)) (cs : String × VariantShape),
      variants.find? (fun cs => cs.1 == ident) = some cs →
      ∀ payload : AnyLuaValue, decodeVariant name variants ident payload =
        (match cs.2 with
         | .unitShape =>
           match payload with
           | .LuaNil => .ok (.vUnitVariant name ident)
           | _ => .error (deError payload)
         | .newtypeShape t1 => do
           pure (.vNewtypeVariant name ident (← decode t1 payload))
         | .tupleShape ts => do
           pure (.vTupleVariant name ident (← decodeTupleInner ts payload))
         | .structShape flds => do
           pure (.vStructVariant name ident (← decodeStructInner flds payload))) := by
  intro variants
  induction variants with
  | nil =>
    intro cs hfind _
    simp at hfind
  | cons hd rest ih =>
    intro cs hfind payload
    obtain ⟨cn, cshape⟩ := hd
    cases hcn : cn == ident with
    | true =>
      rw [List.find?_cons_of_pos _ (by simpa using hcn)] at hfind
      have hcs : cs = (cn, cshape) := by
        injection hfind with h
        exact h.symm
      subst hcs
      rw [decodeVariant.eq_def]
      simp only []
      rw [if_pos hcn]
    | false =>
      rw [List.find?_cons_of_neg _ (by simpa using hcn)] at hfind
      rw [decodeVariant.eq_def]
      simp only []
      rw [if_neg (by simp [hcn])]
      exact ih cs hfind payload

/-- Pointwise decoding success makes `decodeElems` succeed with the list of
results. -/
theorem decodeElems_ok :
    ∀ {ts : List Ty} {ws : List AnyLuaValue} {xs : List NativeValue},
      ws.length = ts.length → xs.length = ts.length →
      (∀ i (h1 : i < ts.length) (h2 : i < ws.length) (h3 : i < xs.length),
        decode (ts.get ⟨i, h1⟩) (ws.get ⟨i, h2⟩) = .ok (xs.get ⟨i, h3⟩)) →
      decodeElems ts ws = .ok xs := by
  intro ts
  induction ts with
  | nil =>
    intro ws xs hw hx _
    cases xs with
    | nil =>
      cases ws with
      | nil =>
        rw [decodeElems]
        intro t ts w ws h _
        simp at h
      | cons w ws0 => simp at hw
    | cons x xs0 => simp at hx
  | cons t ts0 ih =>
    intro ws xs hw hx hpt
    cases ws with
    | nil => simp at hw
    | cons w ws0 =>
      cases xs with
      | nil => simp at hx
      | cons x xs0 =>
        rw [decodeElems]
        have h0 := hpt 0 (by simp) (by simp) (by simp)
        simp only [List.get] at h0
        rw [h0, except_bind_ok]
        rw [ih (by simpa using hw) (by simpa using hx)
          (fun i h1 h2 h3 => by
            simpa using hpt (i + 1) (by simpa using h1) (by simpa using h2)
              (by simpa using h3))]
        rw [except_bind_ok, except_pure_eq]

/-- Filtering a keyed list by the j-th name keeps exactly the j-th entry when
the names are exactly `nms` and `nms` has no duplicate. -/
theorem filter_eq_singleton_of_names {α : Type} :
    ∀ (kvs : List (String × α)) (nms : List String), kvs.map Prod.fst = nms →
      nms.Nodup → ∀ j (hj : j < nms.length) (hk : j < kvs.length),
      kvs.filter (fun kv => kv.1 == nms.get ⟨j, hj⟩) = [kvs.get ⟨j, hk⟩] := by
  intro kvs
  induction kvs with
  | nil =>
    intro nms hmap _ j hj hk
    simp at hk
  | cons a rest ih =>
    intro nms hmap hnodup j hj hk
    obtain ⟨k0, v0⟩ := a
    cases nms with
    | nil => simp at hmap
    | cons n0 nms0 =>
      rw [List.map_cons] at hmap
      injection hmap with h1 h2
      simp only [] at h1
      subst h1
      rw [List.nodup_cons] at hnodup
      cases j with
      | zero =>
        simp only [List.get]
        rw [List.filter_cons, if_pos (by simp)]
        congr 1
        rw [List.filter_eq_nil_iff]
        intro kv hkv
        have hmem : kv.1 ∈ nms0 := by
          rw [← h2]
          exact List.mem_map_of_mem Prod.fst hkv
        simp only [beq_iff_eq]
        intro hcontra
        exact hnodup.1 (hcontra ▸ hmem)
      | succ i =>
        simp only [List.get]
        rw [List.filter_cons, if_neg ?hneg]
        case hneg =>
          simp only [beq_iff_eq]
          intro hcontra
          have hmem : nms0.get ⟨i, by simpa using hj⟩ ∈ nms0 := List.get_mem _ _ _
          exact hnodup.1 (hcontra ▸ hmem)
        exact ih nms0 h2 hnodup.2 i (by simpa using hj) (by simpa using hk)

/-- When each declared field filters to a single pair that decodes at its
shape, `decodeFields` succeeds with the expected fields. -/
theorem decodeFields_ok :
    ∀ (flds : List (String × Ty)) (kvs : List (String × AnyLuaValue))
      (fs : List (String × NativeValue)),
      fs.length = flds.length →
      (∀ j (h1 : j < flds.length) (h2 : j < fs.length),
        (fs.get ⟨j, h2⟩).1 = (flds.get ⟨j, h1⟩).1 ∧
        ∃ w, kvs.filter (fun kv => kv.1 == (flds.get ⟨j, h1⟩).1) =
            [((flds.get ⟨j, h1⟩).1, w)] ∧
          decode (flds.get ⟨j, h1⟩).2 w = .ok (fs.get ⟨j, h2⟩).2) →
      decodeFields flds kvs = .ok fs := by
  intro flds
  induction flds with
  | nil =>
    intro kvs fs hlen _
    cases fs with
    | nil => rw [decodeFields]
    | cons f fs0 => simp at hlen
  | cons g gs ih =>
    intro kvs fs hlen hpt
    obtain ⟨gn, gt⟩ := g
    cases fs with
    | nil => simp at hlen
    | cons f fs0 =>
      obtain ⟨fn, w0⟩ := f
      obtain ⟨hname0, w, hfilter0, hdec0⟩ := hpt 0 (by simp) (by simp)
      simp only [List.get] at hname0 hfilter0 hdec0
      rw [decodeFields]
      rw [hfilter0]
      simp only []
      rw [hdec0, except_bind_ok]
      rw [ih kvs fs0 (by simpa using hlen)
        (fun j h1 h2 => by
          have := hpt (j + 1) (by simpa using h1) (by simpa using h2)
          simpa using this)]
      rw [except_bind_ok, except_pure_eq]
      rw [hname0]


/-- A node predicate holding everywhere holds at the root. -/
theorem allValues_head {p : NativeValue → Bool} {v : NativeValue}
    (h : allValues p v = true) : p v = true := by
  rw [allValues.eq_def] at h
  simp only [Bool.and_eq_true] at h
  exact h.1

/-- Descending `allValues` into the payload of an optional. -/
theorem allValues_vSome {p : NativeValue → Bool} {u : NativeValue}
    (h : allValues p (.vSome u) = true) : allValues p u = true := by
  rw [allValues.eq_def] at h
  simp only [Bool.and_eq_true] at h
  exact h.2

/-- Descending `allValues` into a newtype struct. -/
theorem allValues_vNewtypeStruct {p : NativeValue → Bool} {n : String}
    {u : NativeValue} (h : allValues p (.vNewtypeStruct n u) = true) :
    allValues p u = true := by
  rw [allValues.eq_def] at h
  simp only [Bool.and_eq_true] at h
  exact h.2

/-- Descending `allValues` into a newtype variant. -/
theorem allValues_vNewtypeVariant {p : NativeValue → Bool} {n c : String}
    {u : NativeValue} (h : allValues p (.vNewtypeVariant n c u) = true) :
    allValues p u = true := by
  rw [allValues.eq_def] at h
  simp only [Bool.and_eq_true] at h
  exact h.2

/-- Descending `allValues` into sequence elements. -/
theorem allValues_vSeq {p : NativeValue → Bool} {vs : List NativeValue}
    (h : allValues p (.vSeq vs) = true) : allValuesList p vs = true := by
  rw [allValues.eq_def] at h
  simp only [Bool.and_eq_true] at h
  exact h.2

/-- Descending `allValues` into tuple elements. -/
theorem allValues_vTuple {p : NativeValue → Bool} {vs : List NativeValue}
    (h : allValues p (.vTuple vs) = true) : allValuesList p vs = true := by
  rw [allValues.eq_def] at h
  simp only [Bool.and_eq_true] at h
  exact h.2

/-- Descending `allValues` into tuple-struct elements. -/
theorem allValues_vTupleStruct {p : NativeValue → Bool} {n : String}
    {vs : List NativeValue} (h : allValues p (.vTupleStruct n vs) = true) :
    allValuesList p vs = true := by
  rw [allValues.eq_def] at h
  simp only [Bool.and_eq_true] at h
  exact h.2

/-- Descending `allValues` into tuple-variant elements. -/
theorem allValues_vTupleVariant {p : NativeValue → Bool} {n c : String}
    {vs : List NativeValue} (h : allValues p (.vTupleVariant n c vs) = true) :
    allValuesList p vs = true := by
  rw [allValues.eq_def] at h
  simp only [Bool.and_eq_true] at h
  exact h.2

/-- Descending `allValues` into map entries. -/
theorem allValues_vMap {p : NativeValue → Bool} {es : List (NativeValue × NativeValue)}
    (h : allValues p (.vMap es) = true) : allValuesPairs p es = true := by
  rw [allValues.eq_def] at h
  simp only [Bool.and_eq_true] at h
  exact h.2

/-- Descending `allValues` into struct fields. -/
theorem allValues_vStruct {p : NativeValue → Bool} {n : String}
    {fs : List (String × NativeValue)} (h : allValues p (.vStruct n fs) = true) :
    allValuesFields p fs = true := by
  rw [allValues.eq_def] at h
  simp only [Bool.and_eq_true] at h
  exact h.2

/-- Descending `allValues` into struct-variant fields. -/
theorem allValues_vStructVariant {p : NativeValue → Bool} {n c : String}
    {fs : List (String × NativeValue)}
    (h : allValues p (.vStructVariant n c fs) = true) :
    allValuesFields p fs = true := by
  rw [allValues.eq_def] at h
  simp only [Bool.and_eq_true] at h
  exact h.2

/-- The table built for an encoded element list: its length, the identity of
its sort, and its values. -/
theorem encoded_seq_table {vs : List NativeValue} {ws : List AnyLuaValue}
    (hm : vs.mapM encode = .ok ws) (hlen63 : vs.length < 2 ^ 63) :
    ((List.enumFrom 1 ws).map
        (fun iw => (AnyLuaValue.LuaNumber (intToF64 (iw.1 : Int)), iw.2))).length =
      vs.length ∧
    is_vec ((List.enumFrom 1 ws).map
        (fun iw => (AnyLuaValue.LuaNumber (intToF64 (iw.1 : Int)), iw.2))) =
      .ok ((List.enumFrom 1 ws).map
        (fun iw => (AnyLuaValue.LuaNumber (intToF64 (iw.1 : Int)), iw.2))) ∧
    ((List.enumFrom 1 ws).map
        (fun iw => (AnyLuaValue.LuaNumber (intToF64 (iw.1 : Int)), iw.2))).map
      Prod.snd = ws := by
  obtain ⟨hwlen, _⟩ := mapM_ok_spec encode hm
  refine ⟨by simp [List.length_map, List.enumFrom_length, hwlen], ?_, ?_⟩
  · apply is_vec_ok_of_positional
    · simp only [List.length_map, List.enumFrom_length]
      omega
    · intro i hi
      simp [List.get_eq_getElem, List.getElem_map, List.getElem_enumFrom, Nat.add_comm]
  · rw [List.map_map]
    have hcomp : (Prod.snd ∘ fun iw : Nat × AnyLuaValue =>
        (AnyLuaValue.LuaNumber (intToF64 (iw.1 : Int)), iw.2)) = Prod.snd := by
      funext iw
      rfl
    rw [hcomp, List.enumFrom_map_snd]

/-- The shape of a successful map-builder run started from the empty builder. -/
theorem map_encode_ok_shape {α : Type} (fk fv : α → SerResult AnyLuaValue)
    {es : List α} {l : AnyLuaValue}
    (h : (do
      let st ← es.foldlM (fun (st : LuaSerializeMap) x =>
        st.serialize_entry (fk x) (fv x)) (⟨[]⟩ : LuaSerializeMap)
      map_end st) = .ok l) :
    ∃ ps, es.mapM (fun x => do
        let k ← fk x
        let _u ← keyCheck k
        let v ← fv x
        pure (k, v)) = .ok ps ∧ l = .LuaArray ps := by
  rw [map_fold_eq] at h
  cases hm : es.mapM (fun x => do
      let k ← fk x
      let _u ← keyCheck k
      let v ← fv x
      pure (k, v)) with
  | error e =>
    rw [hm] at h
    simp [except_bind_error] at h
  | ok ps =>
    rw [hm] at h
    simp only [except_bind_ok, except_pure_eq, map_end, Except.ok.injEq] at h
    refine ⟨ps, rfl, ?_⟩
    rw [← h]
    simp

/-- Inverting one success of the map builder's per-entry action. -/
theorem map_entry_action_inv {α : Type} {fk fv : α → SerResult AnyLuaValue}
    {x : α} {p : AnyLuaValue × AnyLuaValue}
    (h : (do
      let k ← fk x
      let _u ← keyCheck k
      let v ← fv x
      pure (k, v)) = .ok p) :
    fk x = .ok p.1 ∧ fv x = .ok p.2 := by
  cases hk : fk x with
  | error e =>
    rw [hk, except_bind_error] at h
    simp at h
  | ok k =>
    rw [hk, except_bind_ok] at h
    cases hc : keyCheck k with
    | error e =>
      rw [hc, except_bind_error] at h
      simp at h
    | ok u =>
      rw [hc, except_bind_ok] at h
      cases hv : fv x with
      | error e =>
        rw [hv, except_bind_error] at h
        simp at h
      | ok v =>
        rw [hv, except_bind_ok, except_pure_eq] at h
        injection h with h
        subst h
        exact ⟨rfl, rfl⟩


/-- Round trip at bounded size: a well typed native value without bytes,
unit-typed struct fields, or a present optional encoding to `Nil`, whose
encode succeeds, decodes back to itself. -/
theorem round_trip_bounded :
    ∀ (n : Nat) (v : NativeValue), sizeOf v < n →
      ∀ t, hasTy v t = true → noBytes v = true → noUnitField v = true →
        optionSafe v = true → ∀ l, encode v = .ok l → decode t l = .ok v := by
  intro n
  induction n with
  | zero =>
    intro v h
    omega
  | succ m ih =>
    intro v hsz t hty hb hu hs l henc
    cases v with
    | vBool b =>
      cases t <;> rw [hasTy.eq_def] at hty <;> simp only [] at hty
      case tBool =>
        rw [encode] at henc
        injection henc with henc
        subst henc
        simp [decode]
      all_goals simp at hty
    | vI8 n =>
      cases t <;> rw [hasTy.eq_def] at hty <;> simp only [] at hty
      case tI8 =>
        simp only [decide_eq_true_eq] at hty
        rw [encode] at henc
        injection henc with henc
        subst henc
        have hrt : f64toI8 (intToF64 n) = n := by
          rw [f64toI8]
          exact castRoundTrip_small (by omega) (by omega) (by omega)
        have hg : f64beq (intToF64 (f64toI8 (intToF64 n))) (intToF64 n) = true := by
          rw [hrt]
          exact f64beq_self_of_ne_nan (intToF64_ne_nan n)
        simp [decode, hg, hrt, f64beq_self_of_ne_nan (intToF64_ne_nan n)]
      all_goals simp at hty
    | vI16 n =>
      cases t <;> rw [hasTy.eq_def] at hty <;> simp only [] at hty
      case tI16 =>
        simp only [decide_eq_true_eq] at hty
        rw [encode] at henc
        injection henc with henc
        subst henc
        have hrt : f64toI16 (intToF64 n) = n := by
          rw [f64toI16]
          exact castRoundTrip_small (by omega) (by omega) (by omega)
        have hg : f64beq (intToF64 (f64toI16 (intToF64 n))) (intToF64 n) = true := by
          rw [hrt]
          exact f64beq_self_of_ne_nan (intToF64_ne_nan n)
        simp [decode, hg, hrt, f64beq_self_of_ne_nan (intToF64_ne_nan n)]
      all_goals simp at hty
    | vI32 n =>
      cases t <;> rw [hasTy.eq_def] at hty <;> simp only [] at hty
      case tI32 =>
        simp only [decide_eq_true_eq] at hty
        rw [encode] at henc
        injection henc with henc
        subst henc
        have hrt : f64toI32 (intToF64 n) = n := by
          rw [f64toI32]
          exact castRoundTrip_small (by omega) (by omega) (by omega)
        have hg : f64beq (intToF64 (f64toI32 (intToF64 n))) (intToF64 n) = true := by
          rw [hrt]
          exact f64beq_self_of_ne_nan (intToF64_ne_nan n)
        simp [decode, hg, hrt, f64beq_self_of_ne_nan (intToF64_ne_nan n)]
      all_goals simp at hty
    | vI64 n =>
      cases t <;> rw [hasTy.eq_def] at hty <;> simp only [] at hty
      case tI64 =>
        rw [encode] at henc
        by_cases hg : f64toI64 (intToF64 n) = n
        · rw [serialize_i64, if_neg (by simp [hg])] at henc
          injection henc with henc
          subst henc
          have hbeq : f64beq (intToF64 (f64toI64 (intToF64 n))) (intToF64 n) = true := by
            rw [hg]
            exact f64beq_self_of_ne_nan (intToF64_ne_nan n)
          simp [decode, hbeq, hg, f64beq_self_of_ne_nan (intToF64_ne_nan n)]
        · rw [serialize_i64, if_pos hg] at henc
          simp at henc
      all_goals simp at hty
    | vU8 n =>
      cases t <;> rw [hasTy.eq_def] at hty <;> simp only [] at hty
      case tU8 =>
        simp only [decide_eq_true_eq] at hty
        rw [encode] at henc
        injection henc with henc
        subst henc
        have hrt : f64toU8 (intToF64 n) = n := by
          rw [f64toU8]
          exact castRoundTrip_small (by omega) (by omega) (by omega)
        have hg : f64beq (intToF64 (f64toU8 (intToF64 n))) (intToF64 n) = true := by
          rw [hrt]
          exact f64beq_self_of_ne_nan (intToF64_ne_nan n)
        simp [decode, hg, hrt, f64beq_self_of_ne_nan (intToF64_ne_nan n)]
      all_goals simp at hty
    | vU16 n =>
      cases t <;> rw [hasTy.eq_def] at hty <;> simp only [] at hty
      case tU16 =>
        simp only [decide_eq_true_eq] at hty
        rw [encode] at henc
        injection henc with henc
        subst henc
        have hrt : f64toU16 (intToF64 n) = n := by
          rw [f64toU16]
          exact castRoundTrip_small (by omega) (by omega) (by omega)
        have hg : f64beq (intToF64 (f64toU16 (intToF64 n))) (intToF64 n) = true := by
          rw [hrt]
          exact f64beq_self_of_ne_nan (intToF64_ne_nan n)
        simp [decode, hg, hrt, f64beq_self_of_ne_nan (intToF64_ne_nan n)]
      all_goals simp at hty
    | vU32 n =>
      cases t <;> rw [hasTy.eq_def] at hty <;> simp only [] at hty
      case tU32 =>
        simp only [decide_eq_true_eq] at hty
        rw [encode] at henc
        injection henc with henc
        subst henc
        have hrt : f64toU32 (intToF64 n) = n := by
          rw [f64toU32]
          exact castRoundTrip_small (by omega) (by omega) (by omega)
        have hg : f64beq (intToF64 (f64toU32 (intToF64 n))) (intToF64 n) = true := by
          rw [hrt]
          exact f64beq_self_of_ne_nan (intToF64_ne_nan n)
        simp [decode, hg, hrt, f64beq_self_of_ne_nan (intToF64_ne_nan n)]
      all_goals simp at hty
    | vU64 n =>
      cases t <;> rw [hasTy.eq_def] at hty <;> simp only [] at hty
      case tU64 =>
        rw [encode] at henc
        by_cases hg : f64toU64 (intToF64 n) = n
        · rw [serialize_u64, if_neg (by simp [hg])] at henc
          injection henc with henc
          subst henc
          have hbeq : f64beq (intToF64 (f64toU64 (intToF64 n))) (intToF64 n) = true := by
            rw [hg]
            exact f64beq_self_of_ne_nan (intToF64_ne_nan n)
          simp [decode, hbeq, hg, f64beq_self_of_ne_nan (intToF64_ne_nan n)]
        · rw [serialize_u64, if_pos hg] at henc
          simp at henc
      all_goals simp at hty
    | vF32 x =>
      cases t <;> rw [hasTy.eq_def] at hty <;> simp only [] at hty
      case tF32 =>
        simp only [decide_eq_true_eq] at hty
        rw [encode] at henc
        injection henc with henc
        subst henc
        simp [decode, hty]
      all_goals simp at hty
    | vF64 x =>
      cases t <;> rw [hasTy.eq_def] at hty <;> simp only [] at hty
      case tF64 =>
        rw [encode] at henc
        injection henc with henc
        subst henc
        simp [decode]
      all_goals simp at hty
    | vChar c =>
      cases t <;> rw [hasTy.eq_def] at hty <;> simp only [] at hty
      case tChar =>
        rw [encode] at henc
        injection henc with henc
        subst henc
        simp [decode, String.toList]
      all_goals simp at hty
    | vStr str =>
      cases t <;> rw [hasTy.eq_def] at hty <;> simp only [] at hty
      case tStr =>
        rw [encode] at henc
        injection henc with henc
        subst henc
        simp [decode]
      all_goals simp at hty
    | vBytes bs =>
      exfalso
      simp only [noBytes] at hb
      have hh := allValues_head hb
      simp at hh
    | vNone =>
      cases t <;> rw [hasTy.eq_def] at hty <;> simp only [] at hty
      case tOption t1 =>
        rw [encode] at henc
        injection henc with henc
        subst henc
        simp [decode]
      all_goals simp at hty
    | vSome w =>
      cases t <;> rw [hasTy.eq_def] at hty <;> simp only [] at hty
      case tOption t1 =>
        rw [encode] at henc
        simp only [noBytes] at hb
        simp only [noUnitField] at hu
        simp only [optionSafe] at hs
        have hb2 : noBytes w = true := by
          simp only [noBytes]
          exact allValues_vSome hb
        have hu2 : noUnitField w = true := by
          simp only [noUnitField]
          exact allValues_vSome hu
        have hs2 : optionSafe w = true := by
          simp only [optionSafe]
          exact allValues_vSome hs
        have hhead := allValues_head hs
        simp only [] at hhead
        rw [henc] at hhead
        have hsw : sizeOf w < m := by
          have hspec : sizeOf (NativeValue.vSome w) = 1 + sizeOf w := by simp
          omega
        have ihw := ih w hsw t1 hty hb2 hu2 hs2 l henc
        cases l with
        | LuaNil => simp at hhead
        | LuaString a => simp [decode, ihw, except_bind_ok, except_pure_eq]
        | LuaAnyString a => simp [decode, ihw, except_bind_ok, except_pure_eq]
        | LuaNumber a => simp [decode, ihw, except_bind_ok, except_pure_eq]
        | LuaBoolean a => simp [decode, ihw, except_bind_ok, except_pure_eq]
        | LuaArray a => simp [decode, ihw, except_bind_ok, except_pure_eq]
        | LuaOther => simp [decode, ihw, except_bind_ok, except_pure_eq]
      all_goals simp at hty
    | vUnit =>
      cases t <;> rw [hasTy.eq_def] at hty <;> simp only [] at hty
      case tUnit =>
        rw [encode] at henc
        injection henc with henc
        subst henc
        simp [decode]
      all_goals simp at hty
    | vUnitStruct nm =>
      cases t <;> rw [hasTy.eq_def] at hty <;> simp only [] at hty
      case tUnitStruct n2 =>
        have hname : nm = n2 := by simpa using hty
        subst hname
        rw [encode] at henc
        injection henc with henc
        subst henc
        simp [decode]
      all_goals simp at hty
    | vNewtypeStruct nm w =>
      cases t <;> rw [hasTy.eq_def] at hty <;> simp only [] at hty
      case tNewtypeStruct n2 t1 =>
        simp only [Bool.and_eq_true, beq_iff_eq] at hty
        obtain ⟨hname, hty1⟩ := hty
        subst hname
        rw [encode] at henc
        have hb2 : noBytes w = true := by
          simp only [noBytes] at hb ⊢
          exact allValues_vNewtypeStruct hb
        have hu2 : noUnitField w = true := by
          simp only [noUnitField] at hu ⊢
          exact allValues_vNewtypeStruct hu
        have hs2 : optionSafe w = true := by
          simp only [optionSafe] at hs ⊢
          exact allValues_vNewtypeStruct hs
        have hsw : sizeOf w < m := by
          have hspec : sizeOf (NativeValue.vNewtypeStruct nm w) =
              1 + sizeOf nm + sizeOf w := by simp
          omega
        have ihw := ih w hsw t1 hty1 hb2 hu2 hs2 l henc
        simp [decode, ihw, except_bind_ok, except_pure_eq]
      all_goals simp at hty
    | vUnitVariant nm c =>
      cases t <;> rw [hasTy.eq_def] at hty <;> simp only [] at hty
      case tEnum n2 variants =>
        simp only [Bool.and_eq_true, beq_iff_eq] at hty
        obtain ⟨⟨hname, hnodup⟩, hfind0⟩ := hty
        subst hname
        rw [encode] at henc
        injection henc with henc
        subst henc
        cases hfind : variants.find? (fun cs => cs.1 == c) with
        | none =>
          rw [hfind] at hfind0
          simp at hfind0
        | some cs =>
          rw [hfind] at hfind0
          obtain ⟨c1, shape⟩ := cs
          cases shape with
          | unitShape =>
            simp only [decode]
            rw [decodeVariant_unit_lookup nm c variants (c1, .unitShape) hfind rfl]
          | newtypeShape t1 => simp at hfind0
          | tupleShape ts => simp at hfind0
          | structShape flds => simp at hfind0
      all_goals simp at hty
    | vNewtypeVariant nm c w =>
      cases t <;> rw [hasTy.eq_def] at hty <;> simp only [] at hty
      case tEnum n2 variants =>
        simp only [Bool.and_eq_true, beq_iff_eq] at hty
        obtain ⟨⟨hname, hnodup⟩, hfind0⟩ := hty
        subst hname
        rw [encode] at henc
        cases hw : encode w with
        | error e =>
          rw [hw, except_bind_error] at henc
          simp at henc
        | ok lw =>
          rw [hw, except_bind_ok, except_pure_eq] at henc
          injection henc with henc
          subst henc
          cases hfind : variants.find? (fun cs => cs.1 == c) with
          | none =>
            rw [hfind] at hfind0
            simp at hfind0
          | some cs =>
            rw [hfind] at hfind0
            obtain ⟨c1, shape⟩ := cs
            cases shape with
            | unitShape => simp at hfind0
            | newtypeShape t1 =>
              simp only [] at hfind0
              have hb2 : noBytes w = true := by
                simp only [noBytes] at hb ⊢
                exact allValues_vNewtypeVariant hb
              have hu2 : noUnitField w = true := by
                simp only [noUnitField] at hu ⊢
                exact allValues_vNewtypeVariant hu
              have hs2 : optionSafe w = true := by
                simp only [optionSafe] at hs ⊢
                exact allValues_vNewtypeVariant hs
              have hsw : sizeOf w < m := by
                have hspec : sizeOf (NativeValue.vNewtypeVariant nm c w) =
                    1 + sizeOf nm + sizeOf c + sizeOf w := by simp
                omega
              have ihw := ih w hsw t1 hfind0 hb2 hu2 hs2 lw hw
              simp only [decode]
              rw [decodeVariant_lookup nm c variants (c1, .newtypeShape t1) hfind lw]
              simp [ihw, except_bind_ok, except_pure_eq]
            | tupleShape ts => simp at hfind0
            | structShape flds => simp at hfind0
      all_goals simp at hty
    | vSeq vs =>
      cases t <;> rw [hasTy.eq_def] at hty <;> simp only [] at hty
      case tSeq t1 =>
        simp only [Bool.and_eq_true, decide_eq_true_eq] at hty
        obtain ⟨hlen63, htySeq⟩ := hty
        rw [encode_vSeq] at henc
        obtain ⟨ws, hm, hl⟩ := seq_encode_ok_shape henc
        subst hl
        obtain ⟨hwlen, hptenc⟩ := mapM_ok_spec encode hm
        obtain ⟨hplen, hvec, hsnd⟩ := encoded_seq_table hm hlen63
        simp only [decode]
        rw [hvec]
        simp only []
        have hdec : ((List.enumFrom 1 ws).map
            (fun iw => (AnyLuaValue.LuaNumber (intToF64 (iw.1 : Int)), iw.2))).mapM
              (fun p => decode t1 p.2) = .ok vs := by
          apply mapM_eq_ok_of_get
          · exact hplen.symm
          · intro i hi hy
            have hsub : (((List.enumFrom 1 ws).map
                (fun iw => (AnyLuaValue.LuaNumber (intToF64 (iw.1 : Int)), iw.2))).get
                  ⟨i, hi⟩).2 = ws.get ⟨i, by
                    simp only [List.length_map, List.enumFrom_length] at hi
                    exact hi⟩ := by
              simp [List.get_eq_getElem, List.getElem_map, List.getElem_enumFrom]
            rw [hsub]
            have hmem := List.get_mem vs i hy
            have hsw : sizeOf (vs.get ⟨i, hy⟩) < m := by
              have hlt := List.sizeOf_lt_of_mem hmem
              have hspec : sizeOf (NativeValue.vSeq vs) = 1 + sizeOf vs := by simp
              omega
            have hb2 : noBytes (vs.get ⟨i, hy⟩) = true := by
              simp only [noBytes] at hb ⊢
              exact allValuesList_mem (allValues_vSeq hb) _ hmem
            have hu2 : noUnitField (vs.get ⟨i, hy⟩) = true := by
              simp only [noUnitField] at hu ⊢
              exact allValuesList_mem (allValues_vSeq hu) _ hmem
            have hs2 : optionSafe (vs.get ⟨i, hy⟩) = true := by
              simp only [optionSafe] at hs ⊢
              exact allValuesList_mem (allValues_vSeq hs) _ hmem
            exact ih (vs.get ⟨i, hy⟩) hsw t1 (hasTySeq_mem htySeq _ hmem) hb2 hu2 hs2
              _ (hptenc i hy (by omega))
        rw [hdec, except_bind_ok, except_pure_eq]
      all_goals simp at hty
    | vTuple vs =>
      cases t <;> rw [hasTy.eq_def] at hty <;> simp only [] at hty
      case tTuple ts =>
        simp only [Bool.and_eq_true, decide_eq_true_eq] at hty
        obtain ⟨hlen63, htyTup⟩ := hty
        rw [encode_vTuple] at henc
        obtain ⟨ws, hm, hl⟩ := seq_encode_ok_shape henc
        subst hl
        obtain ⟨hwlen, hptenc⟩ := mapM_ok_spec encode hm
        obtain ⟨hplen, hvec, hsnd⟩ := encoded_seq_table hm hlen63
        obtain ⟨hvslen, hptty⟩ := hasTyTup_spec htyTup
        have hinner : decodeTupleInner ts (.LuaArray ((List.enumFrom 1 ws).map
            (fun iw => (AnyLuaValue.LuaNumber (intToF64 (iw.1 : Int)), iw.2)))) =
            .ok vs := by
          rw [decodeTupleInner]
          rw [if_neg (by simp [hplen, hvslen])]
          rw [hvec]
          simp only []
          rw [hsnd]
          apply decodeElems_ok (by omega) (by omega)
          intro i h1 h2 h3
          have hmem := List.get_mem vs i h3
          have hsw : sizeOf (vs.get ⟨i, h3⟩) < m := by
            have hlt := List.sizeOf_lt_of_mem hmem
            have hspec : sizeOf (NativeValue.vTuple vs) = 1 + sizeOf vs := by simp
            omega
          have hb2 : noBytes (vs.get ⟨i, h3⟩) = true := by
            simp only [noBytes] at hb ⊢
            exact allValuesList_mem (allValues_vTuple hb) _ hmem
          have hu2 : noUnitField (vs.get ⟨i, h3⟩) = true := by
            simp only [noUnitField] at hu ⊢
            exact allValuesList_mem (allValues_vTuple hu) _ hmem
          have hs2 : optionSafe (vs.get ⟨i, h3⟩) = true := by
            simp only [optionSafe] at hs ⊢
            exact allValuesList_mem (allValues_vTuple hs) _ hmem
          exact ih (vs.get ⟨i, h3⟩) hsw _ (hptty i h3 h1) hb2 hu2 hs2
            _ (hptenc i h3 h2)
        simp only [decode]
        rw [hinner, except_bind_ok, except_pure_eq]
      all_goals simp at hty
    | vTupleStruct nm vs =>
      cases t <;> rw [hasTy.eq_def] at hty <;> simp only [] at hty
      case tTupleStruct n2 ts =>
        simp only [Bool.and_eq_true, beq_iff_eq, decide_eq_true_eq] at hty
        obtain ⟨⟨hname, hlen63⟩, htyTup⟩ := hty
        subst hname
        rw [encode_vTupleStruct] at henc
        obtain ⟨ws, hm, hl⟩ := seq_encode_ok_shape henc
        subst hl
        obtain ⟨hwlen, hptenc⟩ := mapM_ok_spec encode hm
        obtain ⟨hplen, hvec, hsnd⟩ := encoded_seq_table hm hlen63
        obtain ⟨hvslen, hptty⟩ := hasTyTup_spec htyTup
        have hinner : decodeTupleInner ts (.LuaArray ((List.enumFrom 1 ws).map
            (fun iw => (AnyLuaValue.LuaNumber (intToF64 (iw.1 : Int)), iw.2)))) =
            .ok vs := by
          rw [decodeTupleInner]
          rw [if_neg (by simp [hplen, hvslen])]
          rw [hvec]
          simp only []
          rw [hsnd]
          apply decodeElems_ok (by omega) (by omega)
          intro i h1 h2 h3
          have hmem := List.get_mem vs i h3
          have hsw : sizeOf (vs.get ⟨i, h3⟩) < m := by
            have hlt := List.sizeOf_lt_of_mem hmem
            have hspec : sizeOf (NativeValue.vTupleStruct nm vs) =
                1 + sizeOf nm + sizeOf vs := by simp
            omega
          have hb2 : noBytes (vs.get ⟨i, h3⟩) = true := by
            simp only [noBytes] at hb ⊢
            exact allValuesList_mem (allValues_vTupleStruct hb) _ hmem
          have hu2 : noUnitField (vs.get ⟨i, h3⟩) = true := by
            simp only [noUnitField] at hu ⊢
            exact allValuesList_mem (allValues_vTupleStruct hu) _ hmem
          have hs2 : optionSafe (vs.get ⟨i, h3⟩) = true := by
            simp only [optionSafe] at hs ⊢
            exact allValuesList_mem (allValues_vTupleStruct hs) _ hmem
          exact ih (vs.get ⟨i, h3⟩) hsw _ (hptty i h3 h1) hb2 hu2 hs2
            _ (hptenc i h3 h2)
        simp only [decode]
        rw [hinner, except_bind_ok, except_pure_eq]
      all_goals simp at hty
    | vTupleVariant nm c vs =>
      cases t <;> rw [hasTy.eq_def] at hty <;> simp only [] at hty
      case tEnum n2 variants =>
        simp only [Bool.and_eq_true, beq_iff_eq] at hty
        obtain ⟨⟨hname, hnodup⟩, hfind0⟩ := hty
        subst hname
        rw [encode] at henc
        rw [attach_foldlM_seq, seq_fold_eq] at henc
        cases hm : vs.mapM encode with
        | error e =>
          rw [hm, except_bind_error, except_bind_error] at henc
          simp at henc
        | ok ws =>
          rw [hm, except_bind_ok, except_pure_eq, except_bind_ok] at henc
          simp only [seq_end, except_bind_ok, except_pure_eq, List.nil_append,
            List.length_nil, Nat.zero_add] at henc
          injection henc with henc
          subst henc
          cases hfind : variants.find? (fun cs => cs.1 == c) with
          | none =>
            rw [hfind] at hfind0
            simp at hfind0
          | some cs =>
            rw [hfind] at hfind0
            obtain ⟨c1, shape⟩ := cs
            cases shape with
            | unitShape => simp at hfind0
            | newtypeShape t1 => simp at hfind0
            | tupleShape ts =>
              simp only [Bool.and_eq_true, decide_eq_true_eq] at hfind0
              obtain ⟨hlen63, htyTup⟩ := hfind0
              obtain ⟨hwlen, hptenc⟩ := mapM_ok_spec encode hm
              obtain ⟨hplen, hvec, hsnd⟩ := encoded_seq_table hm hlen63
              obtain ⟨hvslen, hptty⟩ := hasTyTup_spec htyTup
              have hinner : decodeTupleInner ts (.LuaArray ((List.enumFrom 1 ws).map
                  (fun iw => (AnyLuaValue.LuaNumber (intToF64 (iw.1 : Int)), iw.2)))) =
                  .ok vs := by
                rw [decodeTupleInner]
                rw [if_neg (by simp [hplen, hvslen])]
                rw [hvec]
                simp only []
                rw [hsnd]
                apply decodeElems_ok (by omega) (by omega)
                intro i h1 h2 h3
                have hmem := List.get_mem vs i h3
                have hsw : sizeOf (vs.get ⟨i, h3⟩) < m := by
                  have hlt := List.sizeOf_lt_of_mem hmem
                  have hspec : sizeOf (NativeValue.vTupleVariant nm c vs) =
                      1 + sizeOf nm + sizeOf c + sizeOf vs := by simp
                  omega
                have hb2 : noBytes (vs.get ⟨i, h3⟩) = true := by
                  simp only [noBytes] at hb ⊢
                  exact allValuesList_mem (allValues_vTupleVariant hb) _ hmem
                have hu2 : noUnitField (vs.get ⟨i, h3⟩) = true := by
                  simp only [noUnitField] at hu ⊢
                  exact allValuesList_mem (allValues_vTupleVariant hu) _ hmem
                have hs2 : optionSafe (vs.get ⟨i, h3⟩) = true := by
                  simp only [optionSafe] at hs ⊢
                  exact allValuesList_mem (allValues_vTupleVariant hs) _ hmem
                exact ih (vs.get ⟨i, h3⟩) hsw _ (hptty i h3 h1) hb2 hu2 hs2
                  _ (hptenc i h3 h2)
              simp only [decode]
              rw [decodeVariant_lookup nm c variants (c1, .tupleShape ts) hfind _]
              simp only []
              rw [hinner, except_bind_ok, except_pure_eq]
            | structShape flds => simp at hfind0
      all_goals simp at hty
    | vMap es =>
      cases t <;> rw [hasTy.eq_def] at hty <;> simp only [] at hty
      case tMap kt vt =>
        rw [encode_vMap] at henc
        obtain ⟨ps, hm, hl⟩ := map_encode_ok_shape _ _ henc
        subst hl
        obtain ⟨hplen, hptact⟩ := mapM_ok_spec _ hm
        simp only [decode]
        rw [drainMap_eq]
        have hdec : ps.mapM (fun kv => do
            let kd ← decode kt kv.1
            let vd ← decode vt kv.2
            pure (kd, vd)) = .ok es := by
          apply mapM_eq_ok_of_get
          · exact hplen.symm
          · intro i hi hy
            have hact := hptact i hy hi
            obtain ⟨hk, hv⟩ := @map_entry_action_inv (NativeValue × NativeValue)
              (fun kv => encode kv.1) (fun kv => encode kv.2)
              (es.get ⟨i, hy⟩) (ps.get ⟨i, hi⟩) hact
            have hmem := List.get_mem es i hy
            have hsz1 : sizeOf (es.get ⟨i, hy⟩).1 < m := by
              have hlt := List.sizeOf_lt_of_mem hmem
              have hspec : sizeOf (NativeValue.vMap es) = 1 + sizeOf es := by simp
              have hp : sizeOf (es.get ⟨i, hy⟩) =
                  1 + sizeOf (es.get ⟨i, hy⟩).1 + sizeOf (es.get ⟨i, hy⟩).2 := by
                obtain ⟨k0, w0⟩ := es.get ⟨i, hy⟩
                simp
              omega
            have hsz2 : sizeOf (es.get ⟨i, hy⟩).2 < m := by
              have hlt := List.sizeOf_lt_of_mem hmem
              have hspec : sizeOf (NativeValue.vMap es) = 1 + sizeOf es := by simp
              have hp : sizeOf (es.get ⟨i, hy⟩) =
                  1 + sizeOf (es.get ⟨i, hy⟩).1 + sizeOf (es.get ⟨i, hy⟩).2 := by
                obtain ⟨k0, w0⟩ := es.get ⟨i, hy⟩
                simp
              omega
            obtain ⟨htyk, htyv⟩ := hasTyEntries_mem hty _ hmem
            have hbk : noBytes (es.get ⟨i, hy⟩).1 = true := by
              simp only [noBytes] at hb ⊢
              exact (allValuesPairs_mem (allValues_vMap hb) _ hmem).1
            have hbv : noBytes (es.get ⟨i, hy⟩).2 = true := by
              simp only [noBytes] at hb ⊢
              exact (allValuesPairs_mem (allValues_vMap hb) _ hmem).2
            have huk : noUnitField (es.get ⟨i, hy⟩).1 = true := by
              simp only [noUnitField] at hu ⊢
              exact (allValuesPairs_mem (allValues_vMap hu) _ hmem).1
            have huv : noUnitField (es.get ⟨i, hy⟩).2 = true := by
              simp only [noUnitField] at hu ⊢
              exact (allValuesPairs_mem (allValues_vMap hu) _ hmem).2
            have hsk : optionSafe (es.get ⟨i, hy⟩).1 = true := by
              simp only [optionSafe] at hs ⊢
              exact (allValuesPairs_mem (allValues_vMap hs) _ hmem).1
            have hsv : optionSafe (es.get ⟨i, hy⟩).2 = true := by
              simp only [optionSafe] at hs ⊢
              exact (allValuesPairs_mem (allValues_vMap hs) _ hmem).2
            have ihk := ih (es.get ⟨i, hy⟩).1 hsz1 kt htyk hbk huk hsk _ hk
            have ihv := ih (es.get ⟨i, hy⟩).2 hsz2 vt htyv hbv huv hsv _ hv
            rw [ihk, except_bind_ok, ihv, except_bind_ok, except_pure_eq]
        rw [hdec, except_bind_ok, except_pure_eq]
      all_goals simp at hty
    | vStruct nm fs =>
      cases t <;> rw [hasTy.eq_def] at hty <;> simp only [] at hty
      case tStruct n2 flds =>
        simp only [Bool.and_eq_true, beq_iff_eq, decide_eq_true_eq] at hty
        obtain ⟨⟨hname, hnodupF⟩, htyF⟩ := hty
        subst hname
        rw [encode_vStruct] at henc
        obtain ⟨ps, hm, hl⟩ := map_encode_ok_shape _ _ henc
        subst hl
        obtain ⟨hplen, hptact⟩ := mapM_ok_spec _ hm
        obtain ⟨hflen, hptF⟩ := hasTyFields_spec htyF
        have hshape : ∀ i (hi : i < ps.length) (hj : i < fs.length),
            (ps.get ⟨i, hi⟩).1 = .LuaString (fs.get ⟨i, hj⟩).1 ∧
            encode (fs.get ⟨i, hj⟩).2 = .ok (ps.get ⟨i, hi⟩).2 := by
          intro i hi hj
          have hact := hptact i hj hi
          obtain ⟨hk, hv⟩ := @map_entry_action_inv (String × NativeValue)
            (fun f => .ok (.LuaString f.1)) (fun f => encode f.2)
            (fs.get ⟨i, hj⟩) (ps.get ⟨i, hi⟩) hact
          constructor
          · injection hk with hk
            exact hk.symm
          · exact hv
        have hnames : fs.map Prod.fst = flds.map Prod.fst := by
          apply List.ext_getElem
          · simp [hflen]
          · intro i h1 h2
            simp only [List.getElem_map]
            have := hptF i (by simpa using h1) (by simpa using h2)
            simpa [List.get_eq_getElem] using this.1
        simp only [decode, decodeStructInner]
        have hkvs : ps.mapM (fun p =>
            match p.1 with
            | .LuaString s => (.ok (s, p.2) : DeResult (String × AnyLuaValue))
            | k => .error (deError k)) =
            .ok ((fs.map Prod.fst).zip (ps.map Prod.snd)) := by
          apply mapM_eq_ok_of_get
          · simp [hplen, hflen]
          · intro i hi hy
            have hzlen : i < fs.length := by
              simp at hy
              omega
            obtain ⟨hk1, _⟩ := hshape i hi hzlen
            have hget : ((fs.map Prod.fst).zip (ps.map Prod.snd)).get ⟨i, hy⟩ =
                ((fs.get ⟨i, hzlen⟩).1, (ps.get ⟨i, hi⟩).2) := by
              simp [List.get_eq_getElem, List.getElem_zip, List.getElem_map]
            rw [hget, hk1]
        rw [hkvs, except_bind_ok]
        have hfields : decodeFields flds ((fs.map Prod.fst).zip (ps.map Prod.snd)) =
            .ok fs := by
          apply decodeFields_ok flds _ fs hflen
          intro j h1 h2
          have hjp : j < ps.length := by omega
          obtain ⟨hnm, htyj⟩ := hptF j h2 h1
          refine ⟨hnm, (ps.get ⟨j, hjp⟩).2, ?_, ?_⟩
          · have hzj : j < ((fs.map Prod.fst).zip (ps.map Prod.snd)).length := by
              simp
              omega
            have hfilter := filter_eq_singleton_of_names
              ((fs.map Prod.fst).zip (ps.map Prod.snd)) (flds.map Prod.fst)
              (by rw [List.map_fst_zip, hnames]; simp [hplen, hflen]) 
              (by simpa using hnodupF) j (by simpa using h1) hzj
            have heqn : (flds.map Prod.fst).get ⟨j, by simpa using h1⟩ =
                (flds.get ⟨j, h1⟩).1 := by
              simp [List.get_eq_getElem, List.getElem_map]
            rw [heqn] at hfilter
            rw [hfilter]
            have hgetz : ((fs.map Prod.fst).zip (ps.map Prod.snd)).get ⟨j, hzj⟩ =
                ((fs.get ⟨j, h2⟩).1, (ps.get ⟨j, hjp⟩).2) := by
              simp [List.get_eq_getElem, List.getElem_zip, List.getElem_map]
            rw [hgetz, hnm]
          · have hmem := List.get_mem fs j h2
            obtain ⟨_, henc2⟩ := hshape j hjp h2
            have hsw : sizeOf (fs.get ⟨j, h2⟩).2 < m := by
              have hlt := List.sizeOf_lt_of_mem hmem
              have hspec : sizeOf (NativeValue.vStruct nm fs) =
                  1 + sizeOf nm + sizeOf fs := by simp
              have hp : sizeOf (fs.get ⟨j, h2⟩) =
                  1 + sizeOf (fs.get ⟨j, h2⟩).1 + sizeOf (fs.get ⟨j, h2⟩).2 := by
                obtain ⟨fn0, w0⟩ := fs.get ⟨j, h2⟩
                simp
              omega
            have hb2 : noBytes (fs.get ⟨j, h2⟩).2 = true := by
              simp only [noBytes] at hb ⊢
              exact allValuesFields_mem (allValues_vStruct hb) _ hmem
            have hu2 : noUnitField (fs.get ⟨j, h2⟩).2 = true := by
              simp only [noUnitField] at hu ⊢
              exact allValuesFields_mem (allValues_vStruct hu) _ hmem
            have hs2 : optionSafe (fs.get ⟨j, h2⟩).2 = true := by
              simp only [optionSafe] at hs ⊢
              exact allValuesFields_mem (allValues_vStruct hs) _ hmem
            exact ih (fs.get ⟨j, h2⟩).2 hsw _ htyj hb2 hu2 hs2 _ henc2
        rw [hfields, except_bind_ok, except_pure_eq]
      all_goals simp at hty
    | vStructVariant nm c fs =>
      cases t <;> rw [hasTy.eq_def] at hty <;> simp only [] at hty
      case tEnum n2 variants =>
        simp only [Bool.and_eq_true, beq_iff_eq] at hty
        obtain ⟨⟨hname, hnodup⟩, hfind0⟩ := hty
        subst hname
        rw [encode] at henc
        rw [attach_foldlM_fields, map_fold_eq] at henc
        cases hm : fs.mapM (fun f => do
            let k ← (.ok (.LuaString f.1) : SerResult AnyLuaValue)
            let _u ← keyCheck k
            let v ← encode f.2
            pure (k, v)) with
        | error e =>
          rw [hm, except_bind_error, except_bind_error] at henc
          simp at henc
        | ok ps =>
          rw [hm, except_bind_ok, except_pure_eq, except_bind_ok] at henc
          simp only [map_end, except_bind_ok, except_pure_eq, List.nil_append] at henc
          injection henc with henc
          subst henc
          cases hfind : variants.find? (fun cs => cs.1 == c) with
          | none =>
            rw [hfind] at hfind0
            simp at hfind0
          | some cs =>
            rw [hfind] at hfind0
            obtain ⟨c1, shape⟩ := cs
            cases shape with
            | unitShape => simp at hfind0
            | newtypeShape t1 => simp at hfind0
            | tupleShape ts => simp at hfind0
            | structShape flds =>
              simp only [Bool.and_eq_true, decide_eq_true_eq] at hfind0
              obtain ⟨hnodupF, htyF⟩ := hfind0
              obtain ⟨hplen, hptact⟩ := mapM_ok_spec _ hm
              obtain ⟨hflen, hptF⟩ := hasTyFields_spec htyF
              have hshape : ∀ i (hi : i < ps.length) (hj : i < fs.length),
                  (ps.get ⟨i, hi⟩).1 = .LuaString (fs.get ⟨i, hj⟩).1 ∧
                  encode (fs.get ⟨i, hj⟩).2 = .ok (ps.get ⟨i, hi⟩).2 := by
                intro i hi hj
                have hact := hptact i hj hi
                obtain ⟨hk, hv⟩ := @map_entry_action_inv (String × NativeValue)
                  (fun f => .ok (.LuaString f.1)) (fun f => encode f.2)
                  (fs.get ⟨i, hj⟩) (ps.get ⟨i, hi⟩) hact
                constructor
                · injection hk with hk
                  exact hk.symm
                · exact hv
              have hnames : fs.map Prod.fst = flds.map Prod.fst := by
                apply List.ext_getElem
                · simp [hflen]
                · intro i h1 h2
                  simp only [List.getElem_map]
                  have := hptF i (by simpa using h1) (by simpa using h2)
                  simpa [List.get_eq_getElem] using this.1
              have hstructInner : decodeStructInner flds (.LuaArray ps) = .ok fs := by
                rw [decodeStructInner]
                have hkvs : ps.mapM (fun p =>
                    match p.1 with
                    | .LuaString s => (.ok (s, p.2) : DeResult (String × AnyLuaValue))
                    | k => .error (deError k)) =
                    .ok ((fs.map Prod.fst).zip (ps.map Prod.snd)) := by
                  apply mapM_eq_ok_of_get
                  · simp [hplen, hflen]
                  · intro i hi hy
                    have hzlen : i < fs.length := by
                      simp at hy
                      omega
                    obtain ⟨hk1, _⟩ := hshape i hi hzlen
                    have hget : ((fs.map Prod.fst).zip (ps.map Prod.snd)).get ⟨i, hy⟩ =
                        ((fs.get ⟨i, hzlen⟩).1, (ps.get ⟨i, hi⟩).2) := by
                      simp [List.get_eq_getElem, List.getElem_zip, List.getElem_map]
                    rw [hget, hk1]
                rw [hkvs, except_bind_ok]
                have hfields : decodeFields flds
                    ((fs.map Prod.fst).zip (ps.map Prod.snd)) = .ok fs := by
                  apply decodeFields_ok flds _ fs hflen
                  intro j h1 h2
                  have hjp : j < ps.length := by omega
                  obtain ⟨hnm, htyj⟩ := hptF j h2 h1
                  refine ⟨hnm, (ps.get ⟨j, hjp⟩).2, ?_, ?_⟩
                  · have hzj : j < ((fs.map Prod.fst).zip (ps.map Prod.snd)).length := by
                      simp
                      omega
                    have hfilter := filter_eq_singleton_of_names
                      ((fs.map Prod.fst).zip (ps.map Prod.snd)) (flds.map Prod.fst)
                      (by rw [List.map_fst_zip, hnames]; simp [hplen, hflen])
                      (by simpa using hnodupF) j (by simpa using h1) hzj
                    have heqn : (flds.map Prod.fst).get ⟨j, by simpa using h1⟩ =
                        (flds.get ⟨j, h1⟩).1 := by
                      simp [List.get_eq_getElem, List.getElem_map]
                    rw [heqn] at hfilter
                    rw [hfilter]
                    have hgetz : ((fs.map Prod.fst).zip (ps.map Prod.snd)).get
                        ⟨j, hzj⟩ = ((fs.get ⟨j, h2⟩).1, (ps.get ⟨j, hjp⟩).2) := by
                      simp [List.get_eq_getElem, List.getElem_zip, List.getElem_map]
                    rw [hgetz, hnm]
                  · have hmem := List.get_mem fs j h2
                    obtain ⟨_, henc2⟩ := hshape j hjp h2
                    have hsw : sizeOf (fs.get ⟨j, h2⟩).2 < m := by
                      have hlt := List.sizeOf_lt_of_mem hmem
                      have hspec : sizeOf (NativeValue.vStructVariant nm c fs) =
                          1 + sizeOf nm + sizeOf c + sizeOf fs := by simp
                      have hp : sizeOf (fs.get ⟨j, h2⟩) =
                          1 + sizeOf (fs.get ⟨j, h2⟩).1 +
                            sizeOf (fs.get ⟨j, h2⟩).2 := by
                        obtain ⟨fn0, w0⟩ := fs.get ⟨j, h2⟩
                        simp
                      omega
                    have hb2 : noBytes (fs.get ⟨j, h2⟩).2 = true := by
                      simp only [noBytes] at hb ⊢
                      exact allValuesFields_mem (allValues_vStructVariant hb) _ hmem
                    have hu2 : noUnitField (fs.get ⟨j, h2⟩).2 = true := by
                      simp only [noUnitField] at hu ⊢
                      exact allValuesFields_mem (allValues_vStructVariant hu) _ hmem
                    have hs2 : optionSafe (fs.get ⟨j, h2⟩).2 = true := by
                      simp only [optionSafe] at hs ⊢
                      exact allValuesFields_mem (allValues_vStructVariant hs) _ hmem
                    exact ih (fs.get ⟨j, h2⟩).2 hsw _ htyj hb2 hu2 hs2 _ henc2
                rw [hfields]
              simp only [decode]
              rw [decodeVariant_lookup nm c variants (c1, .structShape flds) hfind _]
              simp only []
              rw [hstructInner, except_bind_ok, except_pure_eq]
      all_goals simp at hty

/-- C1 (amended): the round trip holds for well typed values with no byte
data, no unit-typed struct field, and — the amendment the counterexample
`Some(None)` forces — no present optional whose payload encodes to `Nil`:
for such values a successful encode decodes back to the same value. -/
theorem round_trip_amended (v : NativeValue) (t : Ty)
    (hty : hasTy v t = true) (hb : noBytes v = true) (hu : noUnitField v = true)
    (hs : optionSafe v = true) (l : AnyLuaValue) (henc : to_lua v = .ok l) :
    from_lua t l = .ok v :=
  round_trip_bounded (sizeOf v + 1) v (by omega) t hty hb hu hs l henc

/-- Witness instantiating the amended C1 round trip at `true : bool`. -/
theorem round_trip_amended_witness :
    hasTy (.vBool true) .tBool = true ∧ noBytes (.vBool true) = true ∧
    noUnitField (.vBool true) = true ∧ optionSafe (.vBool true) = true ∧
    to_lua (.vBool true) = .ok (.LuaBoolean true) ∧
    from_lua .tBool (.LuaBoolean true) = .ok (.vBool true) := by
  have h1 : hasTy (.vBool true) .tBool = true := by
    rw [hasTy.eq_def]
  have h2 : noBytes (.vBool true) = true := by
    simp only [noBytes]
    rw [allValues.eq_def]
    simp
  have h3 : noUnitField (.vBool true) = true := by
    simp only [noUnitField]
    rw [allValues.eq_def]
    simp
  have h4 : optionSafe (.vBool true) = true := by
    simp only [optionSafe]
    rw [allValues.eq_def]
    simp
  have h5 : to_lua (.vBool true) = .ok (.LuaBoolean true) := by
    simp only [to_lua]
    rw [encode]
  exact ⟨h1, h2, h3, h4, h5, round_trip_amended _ _ h1 h2 h3 h4 _ h5⟩
